import Mathlib

/-!
Verification development for the evaluation core of the Eve runtime
(src/src/runtime/runtime.ts): databases of EAVN quads, a change set with
commit semantics, the block activation filter, the fixpoint driver and the
evaluation queue.

The runtime's collaborators (the triple index, the change set, blocks and
actions: src/runtime/indexes.ts, changes.ts, block.ts, actions.ts) are not
part of the staged sources; their definitions below are modelled from the
specification (sections 3, 4.1, 4.2, 4.4) and are marked as such.  All
definitions for runtime.ts itself are translated from that file.
-/

namespace Eve

/-- Opaque scalar slot of an EAVN quadruple (entities, attributes, values and
provenance nodes are all opaque scalars; attributes are conventionally
symbols such as "tag"). -/
abbrev Val := String

/-- Modelled from the spec: an EAVN quadruple (entity, attribute, value,
provenance node).  Equality on all four fields defines quad identity. -/
structure Quad where
  e : Val
  a : Val
  v : Val
  n : Val
deriving DecidableEq, Repr

/-- Modelled from the spec: a triple index is a set of quads.  The committed
store keeps each quad at most once; the logical fact is the (e,a,v) triple,
with the nodes of the quads sharing it acting as reference-counted
provenance. -/
abbrev TripleIndex := List Quad

/-- Modelled from the spec: point membership of the logical (e,a,v) triple,
any provenance. -/
def TripleIndex.containsTriple (ix : TripleIndex) (e a v : Val) : Bool :=
  ix.any (fun q => q.e == e && q.a == a && q.v == v)

/-- Modelled from the spec: insert a quad; the flag is true when the logical
(e,a,v) triple became present (it was absent before this insertion). -/
def TripleIndex.insertQuad (ix : TripleIndex) (e a v n : Val) : TripleIndex × Bool :=
  if ix.contains ⟨e, a, v, n⟩ then (ix, false)
  else (ix ++ [⟨e, a, v, n⟩], !ix.containsTriple e a v)

/-- Modelled from the spec: remove a quad; the flag is true when the last
provenance for (e,a,v) is gone.  Removal of a non-present quad is a no-op. -/
def TripleIndex.removeQuad (ix : TripleIndex) (e a v n : Val) : TripleIndex × Bool :=
  if ix.contains ⟨e, a, v, n⟩ then
    let ix2 := ix.erase ⟨e, a, v, n⟩
    (ix2, !TripleIndex.containsTriple ix2 e a v)
  else (ix, false)

/-- The multi-index: a namespace of named triple indexes (spec 4.3). -/
abbrev MultiIndex := List (String × TripleIndex)

/-- Look a database's index up by name. -/
def MultiIndex.lookup (mi : MultiIndex) (name : String) : Option TripleIndex :=
  (mi.find? (fun p => p.1 == name)).map (fun p => p.2)

/-- Replace the index registered under a name. -/
def MultiIndex.set (mi : MultiIndex) (name : String) (ix : TripleIndex) : MultiIndex :=
  mi.map (fun p => if p.1 == name then (p.1, ix) else p)

/-- Register an index under a fresh name (Evaluation.registerDatabase guards
against duplicates before calling this, so the name is new here). -/
def MultiIndex.register (mi : MultiIndex) (name : String) (ix : TripleIndex) : MultiIndex :=
  mi ++ [(name, ix)]

/-- Modelled from the spec: the tag merge lookup.  Given an entity and an
attribute it returns the values consistent with the partial key, merged with
the pending entries of the currently active change set.  At every call site
in runtime.ts (Evaluation.blocksFromCommit, reached only right after a
commit) the active change set has no pending entries, so the committed
state alone is returned. -/
def MultiIndex.dangerousMergeLookup (mi : MultiIndex) (e a : Val) : List Val :=
  (mi.foldr (fun p acc =>
    p.2.filterMap (fun q => if q.e == e && q.a == a then some q.v else none) ++ acc) []).dedup

/-- Modelled from the spec: one staged entry of the change set, keyed by
(database, e, a, v, n, round) with a signed multiplicity. -/
structure StagedEntry where
  db : String
  e : Val
  a : Val
  v : Val
  n : Val
  round : Nat
  count : Int
deriving DecidableEq, Repr

/-- One six-wide record of a committed delta: (change, e, a, v, n, round).
runtime.ts iterates the flat array six entries at a time; the embedding keeps
the six slots as one record. -/
structure CommitEntry where
  change : Int
  e : Val
  a : Val
  v : Val
  n : Val
  round : Nat
deriving DecidableEq, Repr

/-- Modelled from the spec (4.2): the change set.  `round` is the fixpoint
round counter, `changed` the flag consumed by the driver, `staged` the
pending entries and `committed` the committed deltas accumulated across the
fixpoint's rounds, each tagged with its target database name (consumed by
Changes.toCommitted). -/
structure Changes where
  round : Nat
  changed : Bool
  staged : List StagedEntry
  committed : List (String × CommitEntry)
deriving DecidableEq, Repr

/-- A fresh change set (new Changes(multiIndex); the index reference is
passed explicitly at commit time in this embedding). -/
def Changes.new : Changes :=
  { round := 0, changed := false, staged := [], committed := [] }

/-- Modelled from the spec: stage a +1 entry for the named database. -/
def Changes.store (c : Changes) (db : String) (e a v n : Val) : Changes :=
  { c with staged := c.staged ++ [⟨db, e, a, v, n, c.round, 1⟩] }

/-- Modelled from the spec: stage a -1 entry for the named database. -/
def Changes.unstore (c : Changes) (db : String) (e a v n : Val) : Changes :=
  { c with staged := c.staged ++ [⟨db, e, a, v, n, c.round, -1⟩] }

/-- Append a batch of staged entries (how executing blocks and actions write
into the change set: spec 4.4, a block's only effect on the change set is
staging derived facts). -/
def Changes.stageAll (c : Changes) (l : List StagedEntry) : Changes :=
  { c with staged := c.staged ++ l }

/-- Modelled from the spec: nextRound() increments `round` and clears
`changed`. -/
def Changes.nextRound (c : Changes) : Changes :=
  { c with round := c.round + 1, changed := false }

/-- The key under which staged entries cancel: (db, e, a, v, n). -/
def StagedEntry.key (s : StagedEntry) : String × Val × Val × Val × Val :=
  (s.db, s.e, s.a, s.v, s.n)

/-- Modelled from the spec: net the staged entries per (db,e,a,v,n) key,
cancelling opposing provenance-equal pairs; first-occurrence order, zero
nets dropped. -/
def netStaged (l : List StagedEntry) : List StagedEntry :=
  (l.foldl (fun acc s =>
    if acc.any (fun t => t.key == s.key) then
      acc.map (fun t => if t.key == s.key then { t with count := t.count + s.count } else t)
    else acc ++ [s]) []).filter (fun t => t.count != 0)

/-- Apply one netted entry to its target index; the optional result is the
delta record it contributes (present when the logical triple changed). -/
def applyStaged (mi : MultiIndex) (s : StagedEntry) : MultiIndex × Option CommitEntry :=
  match mi.lookup s.db with
  | none => (mi, none)
  | some ix =>
    if s.count > 0 then
      let r := ix.insertQuad s.e s.a s.v s.n
      (mi.set s.db r.1, if r.2 then some ⟨1, s.e, s.a, s.v, s.n, s.round⟩ else none)
    else
      let r := ix.removeQuad s.e s.a s.v s.n
      (mi.set s.db r.1, if r.2 then some ⟨-1, s.e, s.a, s.v, s.n, s.round⟩ else none)

/-- What Changes.commit returns: the change set after the commit, the
updated indexes and the committed delta as a flat six-wide sequence. -/
structure CommitResult where
  changes : Changes
  multiIndex : MultiIndex
  commit : List CommitEntry

/-- Modelled from the spec (4.2, commit): atomically apply the staged
entries to their target indexes, compute the net delta, update `changed` to
whether the net delta was non-empty and return the delta. -/
def Changes.commit (c : Changes) (mi : MultiIndex) : CommitResult :=
  let net := netStaged c.staged
  let fin := net.foldl
    (fun acc s =>
      let r := applyStaged acc.1 s
      (r.1, acc.2 ++ (r.2.map (fun en => (s.db, en))).toList))
    (mi, ([] : List (String × CommitEntry)))
  { changes := { c with staged := [],
                        changed := !fin.2.isEmpty,
                        committed := c.committed ++ fin.2 },
    multiIndex := fin.1,
    commit := fin.2.map (fun p => p.2) }

/-- Modelled from the spec: fold another change set's pending entries into
this one without committing (used by the remote-block resumption path); the
merged entries join the current round. -/
def Changes.mergeRound (c other : Changes) : Changes :=
  { c with staged := c.staged ++ other.staged.map (fun s => { s with round := c.round }) }

/-- toCommitted(filter): the committed delta restricted to the named
databases, as a flat six-wide sequence. -/
def Changes.toCommitted (c : Changes) (names : List String) : List CommitEntry :=
  c.committed.filterMap (fun p => if names.contains p.1 then some p.2 else none)

/-- The block activation filter's predicate (spec 4.5):
check(index, change, tags, e, a, v). -/
structure Checker where
  check : MultiIndex → Int → List Val → Val → Val → Val → Bool

/-- A block (spec 4.4, 6).  `execute` runs the block against the committed
state plus the pending changes and stages derived facts into the change set;
the embedding returns the staged entries it appends.  The local/remote
variants are a tagged flag, as the design notes suggest (instanceof
RemoteBlock in runtime.ts). -/
structure Block where
  id : String
  dormant : Bool
  isRemote : Bool
  checker : Checker
  exec : MultiIndex → Changes → List StagedEntry

/-- An action (spec 6): execute(multiIndex, scratch, changes); the core
passes an empty scratch list.  Like blocks, its only effect is staging
entries into the change set. -/
structure Action where
  id : String
  exec : MultiIndex → List Val → Changes → List StagedEntry

/-- A database (runtime.ts, class Database): a name-scoped triple index, its
blocks, the set of registered evaluations and the non-executing flag.  Per
the design notes the back-references to evaluations are held by identifier
(a Nat naming the evaluation), which breaks the object cycle. -/
structure Database where
  id : String
  blocks : List Block
  index : TripleIndex
  evaluations : List Nat
  nonExecuting : Bool

/-- Database.register (runtime.ts lines 42-46): add the evaluation to the
list unless it is already there. -/
def Database.register (db : Database) (evaluation : Nat) : Database :=
  if db.evaluations.contains evaluation then db
  else { db with evaluations := db.evaluations ++ [evaluation] }

/-- The divergence cap on fixpoint rounds (runtime.ts line 8). -/
def MAX_ROUNDS : Nat := 300

/-- The kinds of queued work items (runtime.ts, enum QueuedType). -/
inductive QueuedType where
  | commit
  | actions
  | changes
deriving DecidableEq, Repr

/-- A queued work item (runtime.ts, interface QueuedEvaluation).  The
optional TypeScript fields are totalized with neutral defaults; `waitingFor`
stays an Option because the object fixpoint() installs as currentEvaluation
carries no waitingFor map at all, while queue() initializes one on every
queued item.  `itemId` is a specification-only identifier used to state
ordering properties of the queue; no operation branches on it. -/
structure QueuedEvaluation where
  type : QueuedType
  commit : List CommitEntry := []
  actions : List Action := []
  changes : Changes := Changes.new
  hasCallback : Bool := false
  waitingFor : Option (List (String × Bool)) := none
  waitingCount : Int := 0
  itemId : Nat := 0

/-- The observable effects of driving an evaluation, in order of occurrence:
rounds starting, blocks executing, commits, error reports (through the
reporter or on standard error), fixpoint notifications with the commit items
they enqueue on peer evaluations, invocations of a work item's callback with
the final change set, and the drain starting/finishing work items. -/
inductive Event where
  | roundStarted (round : Nat)
  | blockExecuted (blockId : String)
  | commitCalled (round : Nat)
  | errorReported (kind : String) (msg : String)
  | consoleError (kind : String) (msg : String)
  | fixpointNotify (dbId : String)
  | enqueuedOnPeer (evaluation : Nat) (commit : List CommitEntry)
  | callbackInvoked (changes : Changes)
  | itemStarted (itemId : Nat)
  | itemFinished (itemId : Nat)
deriving DecidableEq, Repr

/-- The state of one Evaluation (runtime.ts, class Evaluation).  `id` names
this evaluation in the databases' back-reference lists.  `pendingDrains`
counts the drains processQueue has scheduled through nextTick and that have
not yet run; `queued` is the field of the same name (read in queue(), set
only in the drain's finished continuation).  `hasErrorReporter` abstracts
the optional errorReporter callback. -/
structure EvalState where
  id : Nat
  queued : Bool
  pendingDrains : Nat
  currentEvaluation : Option QueuedEvaluation
  evaluationQueue : List QueuedEvaluation
  multiIndex : MultiIndex
  databases : List Database
  databaseNames : List (String × String)
  nameToDatabase : List (String × Database)
  hasErrorReporter : Bool

/-- Evaluation.databaseToName: the name under which a database was
registered in this evaluation. -/
def EvalState.databaseToName (st : EvalState) (db : Database) : Option String :=
  (st.databaseNames.find? (fun p => p.1 == db.id)).map (fun p => p.2)

/-- Database.onFixpoint (runtime.ts lines 58-67): restrict the committed
delta to this database's name in the current evaluation; when the
restriction is empty return without enqueueing anything, otherwise enqueue
the commit on every registered evaluation other than the current one.  The
result lists the (peer evaluation, commit) enqueue operations in order.
When the database has no name in the current evaluation the restriction is
taken over no names and is empty. -/
def Database.onFixpoint (db : Database) (databaseNames : List (String × String))
    (currentEvaluation : Nat) (changes : Changes) : List (Nat × List CommitEntry) :=
  let name := (databaseNames.find? (fun p => p.1 == db.id)).map (fun p => p.2)
  let commit := changes.toCommitted name.toList
  if commit.isEmpty then []
  else (db.evaluations.filter (fun ev => ev != currentEvaluation)).map (fun ev => (ev, commit))

/-- Evaluation.error (runtime.ts lines 132-138): report through the error
reporter when one is set, otherwise write to standard error. -/
def EvalState.errorEvent (st : EvalState) (kind msg : String) : Event :=
  if st.hasErrorReporter then Event.errorReported kind msg else Event.consoleError kind msg

/-- Evaluation.registerDatabase (runtime.ts lines 151-164): registering a
name that is already registered throws before touching any state (the
analyze hooks of the base Database class are no-ops).  On success the
database is appended to the databases list, both name maps gain the pair,
the multi-index registers the database's index and the database records
this evaluation. -/
def EvalState.registerDatabase (st : EvalState) (name : String) (db : Database) :
    Except String EvalState :=
  if (st.nameToDatabase.find? (fun p => p.1 == name)).isSome then
    Except.error ("Trying to register a database name that is already registered: " ++ name)
  else
    let db2 := db.register st.id
    Except.ok { st with
      databases := st.databases ++ [db2],
      databaseNames := st.databaseNames ++ [(db.id, name)],
      nameToDatabase := st.nameToDatabase ++ [(name, db2)],
      multiIndex := st.multiIndex.register name db.index }

/-- The per-scan tag cache of Evaluation.blocksFromCommit, with the list of
entities whose tag merge lookup was actually computed (each lookup logs its
entity; cache hits log nothing). -/
structure ScanState where
  cache : List (Val × List Val)
  log : List Val
deriving DecidableEq, Repr

/-- The cached read of tagsCache[e] in blocksFromCommit: on a miss the tag
merge lookup runs once and the result is stored for the rest of the scan. -/
def lookupTags (mi : MultiIndex) (s : ScanState) (e : Val) : List Val × ScanState :=
  match s.cache.find? (fun p => p.1 == e) with
  | some p => (p.2, s)
  | none =>
    let tags := mi.dangerousMergeLookup e "tag"
    (tags, ⟨s.cache ++ [(e, tags)], s.log ++ [e]⟩)

/-- The inner loop of blocksFromCommit over one block: walk the committed
delta six entries at a time and stop at the first change the block's checker
accepts. -/
def scanChanges (mi : MultiIndex) (checker : Checker) :
    ScanState → List CommitEntry → Bool × ScanState
  | s, [] => (false, s)
  | s, ch :: rest =>
    let p := lookupTags mi s ch.e
    if checker.check mi ch.change p.1 ch.e ch.a ch.v then (true, p.2)
    else scanChanges mi checker p.2 rest

/-- blocksFromCommit's walk over one database's blocks, skipping dormant
blocks and keeping every block whose scan found a matching change. -/
def scanBlocks (mi : MultiIndex) (commit : List CommitEntry) :
    ScanState → List Block → List Block × ScanState
  | s, [] => ([], s)
  | s, b :: bs =>
    if b.dormant then scanBlocks mi commit s bs
    else
      let p := scanChanges mi b.checker s commit
      let q := scanBlocks mi commit p.2 bs
      ((if p.1 then [b] else []) ++ q.1, q.2)

/-- blocksFromCommit's walk over the databases, skipping non-executing
databases; the tag cache is shared across the whole scan. -/
def blocksFromCommitAux (mi : MultiIndex) (commit : List CommitEntry) :
    ScanState → List Database → List Block × ScanState
  | s, [] => ([], s)
  | s, db :: dbs =>
    if db.nonExecuting then blocksFromCommitAux mi commit s dbs
    else
      let p := scanBlocks mi commit s db.blocks
      let q := blocksFromCommitAux mi commit p.2 dbs
      (p.1 ++ q.1, q.2)

/-- Evaluation.blocksFromCommit (runtime.ts lines 174-206): the next block
set computed from a committed delta. -/
def EvalState.blocksFromCommit (st : EvalState) (commit : List CommitEntry) : List Block :=
  (blocksFromCommitAux st.multiIndex commit ⟨[], []⟩ st.databases).1

/-- The final scan state of blocksFromCommit (its tag cache and lookup
log), for stating the caching property. -/
def EvalState.blocksFromCommitScan (st : EvalState) (commit : List CommitEntry) : ScanState :=
  (blocksFromCommitAux st.multiIndex commit ⟨[], []⟩ st.databases).2

/-- Evaluation.getAllBlocks (runtime.ts lines 208-218). -/
def EvalState.getAllBlocks (st : EvalState) : List Block :=
  st.databases.foldr (fun db acc =>
    if db.nonExecuting then acc else db.blocks.filter (fun b => !b.dormant) ++ acc) []

/-- The outcome of the fixpoint driver.  `done` carries the state after the
fixpoint (current-evaluation slot cleared), the final change set (handed to
the callback) and the trace; `parked` the state of an evaluation suspended
on remote blocks; `crashed` an execution ended by an uncaught TypeScript
error, with the state at the throw; `outOfFuel` the recursion-depth guard of
the embedding, proved unreachable for the fuel the driver passes. -/
inductive FixpointResult where
  | done (st : EvalState) (changes : Changes) (trace : List Event)
  | parked (st : EvalState) (trace : List Event)
  | crashed (st : EvalState) (msg : String) (trace : List Event)
  | outOfFuel

/-- The trace of a fixpoint outcome. -/
def FixpointResult.trace : FixpointResult → List Event
  | .done _ _ tr => tr
  | .parked _ tr => tr
  | .crashed _ _ tr => tr
  | .outOfFuel => []

/-- Write a key of a waitingFor map. -/
def setWaiting (m : List (String × Bool)) (k : String) (v : Bool) : List (String × Bool) :=
  if m.any (fun p => p.1 == k) then m.map (fun p => if p.1 == k then (p.1, v) else p)
  else m ++ [(k, v)]

/-- Read a key of a waitingFor map (an absent key is falsy, like the
TypeScript lookup). -/
def getWaiting (m : List (String × Bool)) (k : String) : Bool :=
  ((m.find? (fun p => p.1 == k)).map (fun p => p.2)).getD false

/-- What one block pass of _fixpointRound produces: the work item as the
pass left it, the events of the blocks that ran, and whether the pass ended
in an uncaught throw. -/
structure PassOut where
  item : QueuedEvaluation
  evs : List Event
  crashed : Bool

/-- One block pass of _fixpointRound (runtime.ts lines 274-282): each remote
block is marked awaited in waitingFor and counted in waitingCount before it
executes; every block stages its derived facts into the change set.  When
the item carries no waitingFor map (the object fixpoint() installs as
currentEvaluation has none), marking a remote block dereferences undefined:
the pass stops there with `crashed`, no later block runs, as in the
TypeScript. -/
def execBlocks (mi : MultiIndex) (item : QueuedEvaluation) : List Block → PassOut
  | [] => { item := item, evs := [], crashed := false }
  | b :: rest =>
    if b.isRemote then
      match item.waitingFor with
      | none => { item := item, evs := [], crashed := true }
      | some m =>
        let item1 := { item with waitingFor := some (setWaiting m b.id true),
                                 waitingCount := item.waitingCount + 1 }
        let item2 := { item1 with changes := item1.changes.stageAll (b.exec mi item1.changes) }
        let r := execBlocks mi item2 rest
        { r with evs := Event.blockExecuted b.id :: r.evs }
    else
      let item2 := { item with changes := item.changes.stageAll (b.exec mi item.changes) }
      let r := execBlocks mi item2 rest
      { r with evs := Event.blockExecuted b.id :: r.evs }

/-- The end-of-fixpoint notifications (runtime.ts lines 296-298): every
registered database's onFixpoint hook runs, each enqueueing the portion of
the commit belonging to it on its peer evaluations. -/
def notifyEvents (st : EvalState) (changes : Changes) : List Event :=
  st.databases.foldr (fun db acc =>
    Event.fixpointNotify db.id ::
      ((db.onFixpoint st.databaseNames st.id changes).map
        (fun p => Event.enqueuedOnPeer p.1 p.2)) ++ acc) []

/-- Prefix the trace of a round-loop outcome with the events of the round
that led to it (the recursive call of _fixpointRound returns through the
caller, so the caller's round events precede the callee's). -/
def resumeWrap (pre : List Event) : FixpointResult → FixpointResult
  | .done st3 ch tr => .done st3 ch (pre ++ tr)
  | .parked st3 tr => .parked st3 (pre ++ tr)
  | .crashed st3 m tr => .crashed st3 m (pre ++ tr)
  | .outOfFuel => .outOfFuel

/-- Evaluation._fixpointRound (runtime.ts lines 267-304), recursion measured
by explicit fuel (each recursive call strictly increases changes.round and
only runs while round < MAX_ROUNDS, so MAX_ROUNDS + 1 fuel never runs out;
see the termination theorem).  While `changed` is set and the round cap is
not reached: advance the round, reset waitingCount, execute the block pass;
if no remote block is awaited, commit, compute the next block set from the
commit and recurse, otherwise park with the state preserved.  Otherwise:
report a Fixpoint Error when the cap was reached, notify every database,
invoke the item's callback with the final change set and clear the
current-evaluation slot. -/
def fixpointGo : Nat → EvalState → QueuedEvaluation → List Block → FixpointResult
  | 0, _, _, _ => .outOfFuel
  | fuel + 1, st, item0, blocks =>
    let item := { item0 with waitingCount := 0 }
    if item.changes.changed = true ∧ item.changes.round < MAX_ROUNDS then
      let item1 := { item with changes := item.changes.nextRound }
      let r := execBlocks st.multiIndex item1 blocks
      if r.crashed then
        .crashed { st with currentEvaluation := some r.item }
          "TypeError: Cannot set properties of undefined"
          (Event.roundStarted item1.changes.round :: r.evs)
      else
        if r.item.waitingCount = 0 then
          let t := r.item.changes.commit st.multiIndex
          let it2 := { r.item with changes := t.changes }
          let st2 := { st with multiIndex := t.multiIndex }
          resumeWrap (Event.roundStarted item1.changes.round :: r.evs ++
              [Event.commitCalled t.changes.round])
            (fixpointGo fuel st2 it2 (st2.blocksFromCommit t.commit))
        else
          .parked { st with currentEvaluation := some r.item }
            (Event.roundStarted item1.changes.round :: r.evs)
    else
      let errEvs :=
        if MAX_ROUNDS ≤ item.changes.round then
          [st.errorEvent "Fixpoint Error" "Evaluation failed to fixpoint"]
        else []
      let cbEvs := if item.hasCallback then [Event.callbackInvoked item.changes] else []
      .done { st with currentEvaluation := none } item.changes
        (errEvs ++ notifyEvents st item.changes ++ cbEvs)

/-- _fixpointRound with the fuel the driver always has available. -/
def EvalState.fixpointRound (st : EvalState) (item : QueuedEvaluation)
    (blocks : List Block) : FixpointResult :=
  fixpointGo (MAX_ROUNDS + 1) st item blocks

/-- Evaluation.fixpoint (runtime.ts lines 323-328): install a fresh
evaluation object as currentEvaluation — an object literal with no
waitingFor map — force `changed` and run the round loop.  `hasCallback`
records whether a callback was passed; the queued item's identifier is kept
for the trace. -/
def EvalState.fixpoint (st : EvalState) (changes : Changes) (blocks : List Block)
    (hasCallback : Bool) (itemId : Nat) : FixpointResult :=
  let item : QueuedEvaluation :=
    { type := QueuedType.changes, changes := { changes with changed := true },
      hasCallback := hasCallback, waitingFor := none, waitingCount := 0, itemId := itemId }
  fixpointGo (MAX_ROUNDS + 1) { st with currentEvaluation := some item } item blocks

/-- The outcome of Evaluation.onRemoteChanges: an uncaught throw (with the
evaluation state exactly as it was), a delivery that leaves the evaluation
still waiting for further remote blocks, or a delivery that resumed the
round loop. -/
inductive RemoteOutcome where
  | threw (msg : String) (st : EvalState)
  | waiting (st : EvalState)
  | resumed (res : FixpointResult)

/-- The assignment evaluation.waitingFor[blockId] = false that
onRemoteChanges performs on the (aliased) evaluation object after the
nested round loop returns, visible wherever that object is still the
current evaluation. -/
def markDeliveredItem (it : QueuedEvaluation) (blockId : String) : QueuedEvaluation :=
  match it.waitingFor with
  | none => it
  | some m => { it with waitingFor := some (setWaiting m blockId false) }

def markDelivered (res : FixpointResult) (blockId : String) : FixpointResult :=
  match res with
  | .done st ch tr => .done st ch tr
  | .parked st tr =>
    .parked { st with currentEvaluation :=
      st.currentEvaluation.map (fun it => markDeliveredItem it blockId) } tr
  | .crashed st m tr =>
    .crashed { st with currentEvaluation :=
      st.currentEvaluation.map (fun it => markDeliveredItem it blockId) } m tr
  | .outOfFuel => .outOfFuel

/-- Evaluation.onRemoteChanges (runtime.ts lines 306-321).  When the block
is marked awaited: merge the delivered changes into the current round,
decrement waitingCount, and when it reaches zero commit, compute the next
block set from the commit and resume the round loop; the waitingFor entry is
set to false afterwards.  When the block is not marked awaited the call
throws with nothing modified.  When there is no current evaluation, or the
current evaluation has no waitingFor map (the object fixpoint() installs
never has one), the property read itself throws. -/
def EvalState.onRemoteChanges (st : EvalState) (blockId : String)
    (delivered : Changes) : RemoteOutcome :=
  match st.currentEvaluation with
  | none => .threw "TypeError: Cannot read properties of undefined" st
  | some ev =>
    match ev.waitingFor with
    | none => .threw "TypeError: Cannot read properties of undefined" st
    | some m =>
      if getWaiting m blockId then
        let ev1 := { ev with changes := ev.changes.mergeRound delivered,
                             waitingCount := ev.waitingCount - 1 }
        if ev1.waitingCount = (0 : Int) then
          let t := ev1.changes.commit st.multiIndex
          let ev2 := { ev1 with changes := t.changes }
          let st2 := { st with multiIndex := t.multiIndex, currentEvaluation := some ev2 }
          .resumed (markDelivered
            (fixpointGo (MAX_ROUNDS + 1) st2 ev2 (st2.blocksFromCommit t.commit)) blockId)
        else
          let ev3 := { ev1 with waitingFor := some (setWaiting m blockId false) }
          .waiting { st with currentEvaluation := some ev3 }
      else
        .threw "Got a remote block execution for a block we're not waiting for" st

/-- The body of processQueue's deferred drain for one shifted work item
(runtime.ts lines 233-245).  A commit item is replayed by fixpointing a
fresh change set over the block set its commit activates; an actions item
stages every action into its change set, commits once and fixpoints over
the block set that single commit activates.  The returned events are those
of the staging phase (the one seed commit); a queued type the drain does
not handle is shifted and ignored (none). -/
def EvalState.processItem (st : EvalState) (item : QueuedEvaluation) :
    Option (FixpointResult × List Event) :=
  match item.type with
  | QueuedType.commit =>
    some (st.fixpoint Changes.new (st.blocksFromCommit item.commit)
      item.hasCallback item.itemId, [])
  | QueuedType.actions =>
    let changes := item.actions.foldl
      (fun c a => c.stageAll (a.exec st.multiIndex [] c)) item.changes
    let t := changes.commit st.multiIndex
    let st2 := { st with multiIndex := t.multiIndex }
    some (st2.fixpoint t.changes (st2.blocksFromCommit t.commit)
      item.hasCallback item.itemId, [Event.commitCalled t.changes.round])
  | QueuedType.changes => none

/-- Evaluation.queue (runtime.ts lines 250-257): when the `queued` flag is
clear (nothing ever sets it) and no evaluation is current, schedule a
drain; initialize the item's waitingFor map and waitingCount and append it
to the queue. -/
def EvalState.queue (st : EvalState) (item : QueuedEvaluation) : EvalState :=
  let st1 :=
    if !st.queued && st.currentEvaluation.isNone then
      { st with pendingDrains := st.pendingDrains + 1 }
    else st
  { st1 with evaluationQueue :=
      st1.evaluationQueue ++ [{ item with waitingFor := some [], waitingCount := 0 }] }

/-- Evaluation.executeActions (runtime.ts lines 263-265). -/
def EvalState.executeActions (st : EvalState) (actions : List Action) (changes : Changes)
    (hasCallback : Bool) (itemId : Nat) : EvalState :=
  st.queue { type := QueuedType.actions, actions := actions, changes := changes,
             hasCallback := hasCallback, itemId := itemId }

/-- One scheduled drain firing (the nextTick callback of processQueue,
runtime.ts lines 220-248).  With no drain scheduled nothing runs.  A firing
drain shifts the head item, processes it, and on completion runs the
`finished` continuation: schedule another drain when the queue is
non-empty, otherwise clear the `queued` flag (the item's own callback was
already invoked inside the round loop).  A parked item leaves its state
installed; an uncaught throw ends the process. -/
inductive TickResult where
  | noTick (st : EvalState)
  | ticked (st : EvalState) (trace : List Event)
  | parkedTick (st : EvalState) (trace : List Event)
  | crashedTick (st : EvalState) (msg : String) (trace : List Event)

def EvalState.runTick (st : EvalState) : TickResult :=
  if st.pendingDrains = 0 then .noTick st
  else
    let st0 := { st with pendingDrains := st.pendingDrains - 1 }
    match st0.evaluationQueue with
    | [] => .ticked st0 []
    | item :: rest =>
      let st1 := { st0 with evaluationQueue := rest }
      match st1.processItem item with
      | none => .ticked st1 []
      | some (res, seedEvs) =>
        match res with
        | .done st2 _ tr =>
          let st3 :=
            if st2.evaluationQueue.isEmpty then { st2 with queued := false }
            else { st2 with pendingDrains := st2.pendingDrains + 1 }
          .ticked st3 (Event.itemStarted item.itemId :: seedEvs ++ tr ++
            [Event.itemFinished item.itemId])
        | .parked st2 tr =>
          .parkedTick st2 (Event.itemStarted item.itemId :: seedEvs ++ tr)
        | .crashed st2 m tr =>
          .crashedTick st2 m (Event.itemStarted item.itemId :: seedEvs ++ tr)
        | .outOfFuel => .crashedTick st1 "out of fuel" [Event.itemStarted item.itemId]

/-- Run up to `n` scheduled drains in order.  A parked drain yields but
later scheduled drains still fire (process.nextTick keeps them queued); an
uncaught throw ends the process, so nothing later runs. -/
def EvalState.runDrains : Nat → EvalState → EvalState × List Event
  | 0, st => (st, [])
  | n + 1, st =>
    match st.runTick with
    | .noTick st1 => (st1, [])
    | .ticked st1 tr =>
      let r := EvalState.runDrains n st1
      (r.1, tr ++ r.2)
    | .parkedTick st1 tr =>
      let r := EvalState.runDrains n st1
      (r.1, tr ++ r.2)
    | .crashedTick st1 _ tr => (st1, tr)

/-- The round a roundStarted event announces. -/
def Event.roundOf : Event → Option Nat
  | .roundStarted r => some r
  | _ => none

/-- Whether an event is a roundStarted event. -/
def Event.isRoundStarted (e : Event) : Bool := e.roundOf.isSome

/-- Whether an event is a commit. -/
def Event.isCommitCalled : Event → Bool
  | .commitCalled _ => true
  | _ => false

/-- Whether an event is a work item starting or finishing. -/
def Event.isItemSched : Event → Bool
  | .itemStarted _ => true
  | .itemFinished _ => true
  | _ => false

/-- The rounds a trace starts, in order. -/
def roundsOf (tr : List Event) : List Nat := tr.filterMap Event.roundOf

/-- No commit happens in a trace before the first round starts. -/
def noCommitBeforeFirstRound (tr : List Event) : Bool :=
  (tr.takeWhile (fun e => !e.isRoundStarted)).all (fun e => !e.isCommitCalled)

/-- The identifiers of the work items a trace starts, in order. -/
def startedIds (tr : List Event) : List Nat :=
  tr.filterMap (fun e => match e with | Event.itemStarted i => some i | _ => none)

/-- Scan of a trace checking that no work item starts while another is
active (started and not yet finished). -/
def wellNestedAux : List Event → Bool → Bool
  | [], _ => true
  | e :: r, active =>
    match e with
    | Event.itemStarted _ => !active && wellNestedAux r true
    | Event.itemFinished _ => wellNestedAux r false
    | _ => wellNestedAux r active

/-- At most one work item is active at any point of the trace. -/
def singleActive (tr : List Event) : Bool := wellNestedAux tr false

/-- The activation decision for one changed triple, with the tags taken
directly from the tag merge lookup (what the cache of blocksFromCommit
holds for the triple's entity). -/
def matchesChange (mi : MultiIndex) (ck : Checker) (ch : CommitEntry) : Bool :=
  ck.check mi ch.change (mi.dangerousMergeLookup ch.e "tag") ch.e ch.a ch.v

/-- The invariant of the blocksFromCommit tag cache: every cached entry
holds exactly the tag merge lookup of its entity, and the lookup log lists
the cached entities in order, without repetition. -/
def ScanInv (mi : MultiIndex) (s : ScanState) : Prop :=
  (∀ p ∈ s.cache, p.2 = mi.dangerousMergeLookup p.1 "tag") ∧
  s.log = s.cache.map Prod.fst ∧ s.log.Nodup

/-- A fixture evaluation state for concrete instances: one registered index
named "main", no databases, an error reporter installed. -/
def emptyEvalState : EvalState :=
  { id := 7, queued := false, pendingDrains := 0, currentEvaluation := none,
    evaluationQueue := [], multiIndex := [("main", [])], databases := [],
    databaseNames := [], nameToDatabase := [], hasErrorReporter := true }

/-- A fixture database with no blocks, registered with evaluations 7 and 9. -/
def sampleDb : Database :=
  { id := "db|1", blocks := [], index := [], evaluations := [7, 9], nonExecuting := false }

/-- A fixture remote block. -/
def sampleRemoteBlock : Block :=
  { id := "r1", dormant := false, isRemote := true,
    checker := { check := fun _ _ _ _ _ _ => false }, exec := fun _ _ => [] }

/-- A fixture action staging one fact into "main". -/
def sampleAction : Action :=
  { id := "a1",
    exec := fun _ _ c => [⟨"main", "e1", "tag", "person", "n1", c.round, 1⟩] }

/-- A fixture checker that activates on attribute "tag". -/
def tagChecker : Checker :=
  { check := fun _ _ _ _ a _ => a == "tag" }

/-- A fixture block activated by tag changes. -/
def tagBlock : Block :=
  { id := "b1", dormant := false, isRemote := false, checker := tagChecker,
    exec := fun _ _ => [] }

/-- A fixture database holding tagBlock. -/
def tagDb : Database :=
  { id := "db|1", blocks := [tagBlock], index := [], evaluations := [7],
    nonExecuting := false }

/-- A fixture evaluation state holding tagDb. -/
def tagState : EvalState := { emptyEvalState with databases := [tagDb] }

/-- A fixture committed tag change. -/
def tagCommitEntry : CommitEntry := ⟨1, "e1", "tag", "person", "n1", 0⟩

/-- The empty tag cache of a fresh scan. -/
def emptyScan : ScanState := ⟨[], []⟩

/-- A fixture queued action item. -/
def sampleItemOne : QueuedEvaluation :=
  { type := QueuedType.actions, actions := [sampleAction], waitingFor := some [], itemId := 1 }

/-- A second fixture action item. -/
def sampleItemTwo : QueuedEvaluation :=
  { type := QueuedType.actions, actions := [], waitingFor := some [], itemId := 2 }

/-- A fixture state with the two queued action items and one scheduled drain. -/
def sampleQueueState : EvalState :=
  { emptyEvalState with
    pendingDrains := 1,
    evaluationQueue := [sampleItemOne, sampleItemTwo] }

/-- The staging phase of an Actions work item: every action executes in
order, staging its effects into the item's shared change set. -/
def stageActions (st : EvalState) (item : QueuedEvaluation) : Changes :=
  item.actions.foldl (fun c a => c.stageAll (a.exec st.multiIndex [] c)) item.changes

/-- The single commit an Actions work item performs after all actions have
staged. -/
def seedCommit (st : EvalState) (item : QueuedEvaluation) : CommitResult :=
  (stageActions st item).commit st.multiIndex

/-- A fixture work item awaiting remote block "r1". -/
def sampleWaitingItem : QueuedEvaluation :=
  { type := QueuedType.changes, waitingFor := some [("r1", true)], waitingCount := 1 }

/-- A fixture evaluation state parked on sampleWaitingItem. -/
def sampleWaitingState : EvalState :=
  { emptyEvalState with currentEvaluation := some sampleWaitingItem }

/-- The committed delta restricted to the name a database carries in an
evaluation (what Database.onFixpoint packages for the peers). -/
def Database.restrictedCommit (db : Database) (databaseNames : List (String × String))
    (changes : Changes) : List CommitEntry :=
  changes.toCommitted ((databaseNames.find? (fun p => p.1 == db.id)).map (fun p => p.2)).toList

theorem fixpointNotify_mem_notifyEvents (st : EvalState) (changes : Changes) (db : Database)
    (h : db ∈ st.databases) :
    Event.fixpointNotify db.id ∈ notifyEvents st changes := by
  have main : ∀ dbs : List Database, db ∈ dbs →
      Event.fixpointNotify db.id ∈ dbs.foldr (fun d acc =>
        Event.fixpointNotify d.id ::
          ((d.onFixpoint st.databaseNames st.id changes).map
            (fun p => Event.enqueuedOnPeer p.1 p.2)) ++ acc) [] := by
    intro dbs
    induction dbs with
    | nil => intro hx; cases hx
    | cons d ds ih =>
      intro hx
      rcases List.mem_cons.mp hx with hx | hx
      · rw [hx]
        exact List.mem_cons_self _ _
      · exact List.mem_cons_of_mem _ (List.mem_append_right _ (ih hx))
  exact main st.databases h

theorem notifyEvents_shape (st : EvalState) (changes : Changes) (e : Event)
    (h : e ∈ notifyEvents st changes) :
    Event.roundOf e = none ∧ Event.isCommitCalled e = false ∧ Event.isItemSched e = false := by
  have main : ∀ dbs : List Database,
      e ∈ dbs.foldr (fun d acc =>
        Event.fixpointNotify d.id ::
          ((d.onFixpoint st.databaseNames st.id changes).map
            (fun p => Event.enqueuedOnPeer p.1 p.2)) ++ acc) [] →
      Event.roundOf e = none ∧ Event.isCommitCalled e = false ∧ Event.isItemSched e = false := by
    intro dbs
    induction dbs with
    | nil => intro hx; cases hx
    | cons d ds ih =>
      intro hx
      rcases List.mem_cons.mp hx with hx | hx
      · rw [hx]
        exact ⟨rfl, rfl, rfl⟩
      · rcases List.mem_append.mp hx with hx | hx
        · rcases List.mem_map.mp hx with ⟨p, _, hp⟩
          rw [← hp]
          exact ⟨rfl, rfl, rfl⟩
        · exact ih hx
  exact main st.databases h

theorem terminalEvents_shape (st : EvalState) (item : QueuedEvaluation) (e : Event)
    (h : e ∈ (if MAX_ROUNDS ≤ item.changes.round then
        [st.errorEvent "Fixpoint Error" "Evaluation failed to fixpoint"] else []) ++
      notifyEvents st item.changes ++
      (if item.hasCallback then [Event.callbackInvoked item.changes] else [])) :
    Event.roundOf e = none ∧ Event.isCommitCalled e = false ∧ Event.isItemSched e = false := by
  rcases List.mem_append.mp h with h | h
  · rcases List.mem_append.mp h with h | h
    · by_cases hb : MAX_ROUNDS ≤ item.changes.round
      · rw [if_pos hb] at h
        rcases List.mem_singleton.mp h with rfl
        unfold EvalState.errorEvent
        by_cases hr : st.hasErrorReporter = true
        · rw [if_pos hr]
          exact ⟨rfl, rfl, rfl⟩
        · rw [if_neg hr]
          exact ⟨rfl, rfl, rfl⟩
      · rw [if_neg hb] at h
        cases h
    · exact notifyEvents_shape st item.changes e h
  · by_cases hcb : item.hasCallback = true
    · rw [if_pos hcb] at h
      rcases List.mem_singleton.mp h with rfl
      exact ⟨rfl, rfl, rfl⟩
    · rw [if_neg hcb] at h
      cases h

theorem execBlocks_evs_shape (mi : MultiIndex) :
    ∀ (bs : List Block) (item : QueuedEvaluation) (e : Event),
      e ∈ (execBlocks mi item bs).evs → ∃ bid, e = Event.blockExecuted bid := by
  intro bs
  induction bs with
  | nil =>
    intro item e he
    simp [execBlocks] at he
  | cons b rest ih =>
    intro item e he
    unfold execBlocks at he
    by_cases hr : b.isRemote = true
    · rw [if_pos hr] at he
      cases hw : item.waitingFor with
      | none =>
        rw [hw] at he
        cases he
      | some m =>
        rw [hw] at he
        rcases List.mem_cons.mp he with he | he
        · exact ⟨b.id, he⟩
        · exact ih _ e he
    · rw [if_neg hr] at he
      rcases List.mem_cons.mp he with he | he
      · exact ⟨b.id, he⟩
      · exact ih _ e he

theorem execBlocks_evs_flags (mi : MultiIndex) (bs : List Block)
    (item : QueuedEvaluation) (e : Event) (he : e ∈ (execBlocks mi item bs).evs) :
    Event.roundOf e = none ∧ Event.isCommitCalled e = false ∧ Event.isItemSched e = false := by
  rcases execBlocks_evs_shape mi bs item e he with ⟨bid, rfl⟩
  exact ⟨rfl, rfl, rfl⟩

theorem roundsOf_execBlocks (mi : MultiIndex) (bs : List Block) (item : QueuedEvaluation) :
    roundsOf (execBlocks mi item bs).evs = [] := by
  unfold roundsOf
  rw [List.filterMap_eq_nil_iff]
  intro e he
  exact (execBlocks_evs_flags mi bs item e he).1

theorem execBlocks_round (mi : MultiIndex) :
    ∀ (bs : List Block) (item : QueuedEvaluation),
      (execBlocks mi item bs).item.changes.round = item.changes.round := by
  intro bs
  induction bs with
  | nil => intro item; rfl
  | cons b rest ih =>
    intro item
    unfold execBlocks
    by_cases hr : b.isRemote = true
    · rw [if_pos hr]
      cases hw : item.waitingFor with
      | none => rfl
      | some m => exact ih _
    · rw [if_neg hr]
      exact ih _

theorem execBlocks_waitingFor_none (mi : MultiIndex) :
    ∀ (bs : List Block) (item : QueuedEvaluation), item.waitingFor = none →
      (execBlocks mi item bs).item.waitingFor = none ∧
      ((execBlocks mi item bs).crashed = false →
        (execBlocks mi item bs).item.waitingCount = item.waitingCount) := by
  intro bs
  induction bs with
  | nil => intro item h; exact ⟨h, fun _ => rfl⟩
  | cons b rest ih =>
    intro item h
    unfold execBlocks
    by_cases hr : b.isRemote = true
    · rw [if_pos hr, h]
      exact ⟨h, fun hc => by cases hc⟩
    · rw [if_neg hr]
      exact ih _ h

/-- C10: Database.register is idempotent: registering an evaluation already
present in the database's evaluations list leaves the database unchanged,
so (the list having no duplicates) every evaluation appears at most once
and each peer is notified at most once per fixpoint. -/
theorem claim_C10_register_idempotent (db : Database) (evaluation : Nat)
    (h : db.evaluations.Nodup) :
    (evaluation ∈ db.evaluations → db.register evaluation = db) ∧
    (db.register evaluation).evaluations.Nodup := by
  constructor
  · intro hm
    simp [Database.register, hm]
  · by_cases hm : evaluation ∈ db.evaluations
    · simpa [Database.register, hm] using h
    · simp [Database.register, hm, List.nodup_append, h]

/-- Witness for C10 at a concrete database: registering the already
registered evaluation 7 on sampleDb changes nothing and keeps the list
duplicate-free. -/
theorem claim_C10_register_idempotent_witness :
    sampleDb.register 7 = sampleDb ∧ (sampleDb.register 7).evaluations.Nodup :=
  ⟨(claim_C10_register_idempotent sampleDb 7 (by decide)).1 (by decide),
   (claim_C10_register_idempotent sampleDb 7 (by decide)).2⟩

/-- C8: Evaluation.registerDatabase throws when the name is already
registered, and in that case produces no updated state at all: the
databases list, both name maps, the multi-index and the database's
evaluations list stay as they were. -/
theorem claim_C8_duplicate_register_throws (st : EvalState) (name : String) (db : Database)
    (h : (st.nameToDatabase.find? (fun p => p.1 == name)).isSome = true) :
    st.registerDatabase name db =
      Except.error ("Trying to register a database name that is already registered: " ++ name) := by
  simp [EvalState.registerDatabase, h]

/-- Witness for C8: registering "main" twice on a concrete state throws. -/
theorem claim_C8_duplicate_register_throws_witness :
    ({ emptyEvalState with nameToDatabase := [("main", sampleDb)] }).registerDatabase
        "main" sampleDb =
      Except.error "Trying to register a database name that is already registered: main" :=
  claim_C8_duplicate_register_throws
    { emptyEvalState with nameToDatabase := [("main", sampleDb)] } "main" sampleDb rfl

/-- C9: Database.onFixpoint enqueues the restricted commit on every
registered evaluation other than the current one exactly when the commit
restricted to this database's name is non-empty; when that restriction is
empty it enqueues nothing, so no peer ever receives an empty commit. -/
theorem claim_C9_onFixpoint_fanout (db : Database)
    (databaseNames : List (String × String)) (currentEvaluation : Nat) (changes : Changes) :
    (db.onFixpoint databaseNames currentEvaluation changes =
      if (db.restrictedCommit databaseNames changes).isEmpty then []
      else (db.evaluations.filter (fun ev => ev != currentEvaluation)).map
        (fun ev => (ev, db.restrictedCommit databaseNames changes))) ∧
    (∀ q ∈ db.onFixpoint databaseNames currentEvaluation changes,
      q.1 ∈ db.evaluations ∧ q.1 ≠ currentEvaluation ∧
      q.2 = db.restrictedCommit databaseNames changes ∧ q.2 ≠ []) := by
  constructor
  · rfl
  · intro q hq
    have heq : db.onFixpoint databaseNames currentEvaluation changes =
        if (db.restrictedCommit databaseNames changes).isEmpty then []
        else (db.evaluations.filter (fun ev => ev != currentEvaluation)).map
          (fun ev => (ev, db.restrictedCommit databaseNames changes)) := rfl
    rw [heq] at hq
    by_cases he : (db.restrictedCommit databaseNames changes).isEmpty = true
    · rw [if_pos he] at hq
      simp at hq
    · rw [if_neg he] at hq
      rcases List.mem_map.mp hq with ⟨ev, hev, hqe⟩
      rcases List.mem_filter.mp hev with ⟨hmem, hne⟩
      subst hqe
      refine ⟨hmem, by simpa using hne, rfl, ?_⟩
      intro hnil
      apply he
      simp [show db.restrictedCommit databaseNames changes = [] from hnil]

/-- C7: delivering a remote change for a block that is not currently marked
awaited in the active work item's waitingFor map throws and aborts, with
the evaluation state (change set, waitingCount, waitingFor) exactly as it
was. -/
theorem claim_C7_unawaited_remote_throws (st : EvalState) (ev : QueuedEvaluation)
    (m : List (String × Bool)) (blockId : String) (delivered : Changes)
    (h1 : st.currentEvaluation = some ev) (h2 : ev.waitingFor = some m)
    (h3 : getWaiting m blockId = false) :
    st.onRemoteChanges blockId delivered =
      RemoteOutcome.threw "Got a remote block execution for a block we're not waiting for" st := by
  unfold EvalState.onRemoteChanges
  rw [h1]
  simp only [h2, h3]
  simp

/-- Witness for C7: a concrete evaluation awaiting block "r1" receives a
delivery for block "zz" and throws, returning the state unchanged. -/
theorem claim_C7_unawaited_remote_throws_witness :
    sampleWaitingState.onRemoteChanges "zz" Changes.new =
      RemoteOutcome.threw "Got a remote block execution for a block we're not waiting for"
        sampleWaitingState :=
  claim_C7_unawaited_remote_throws sampleWaitingState sampleWaitingItem
    [("r1", true)] "zz" Changes.new rfl rfl rfl

/-- C5 (code evidence): a fixpoint whose block set contains a remote block
crashes with a TypeError instead of marking the block awaited and parking:
Evaluation.fixpoint installs a currentEvaluation object that has no
waitingFor map, so _fixpointRound's write waitingFor[block.id] = true
dereferences undefined. -/
theorem claim_C5_remote_block_crash :
    ∃ st tr,
      emptyEvalState.fixpoint (Changes.new.store "main" "e" "a" "v" "n")
          [sampleRemoteBlock] false 0 =
        FixpointResult.crashed st "TypeError: Cannot set properties of undefined" tr :=
  ⟨_, _, rfl⟩

/-- C2: when changes.round has reached MAX_ROUNDS with changed still set,
the driver reports a "Fixpoint Error" through the error reporter (or on
standard error when no reporter is set), keeps the state of the earlier
rounds' commits applied (only the current-evaluation slot changes, to
cleared), still invokes every registered database's onFixpoint hook, and
still invokes the work item's callback with the final change set. -/
theorem claim_C2_divergence_effects (st : EvalState) (item : QueuedEvaluation)
    (blocks : List Block) (h1 : item.changes.round = MAX_ROUNDS)
    (_h2 : item.changes.changed = true) :
    ∃ tr, st.fixpointRound item blocks =
        FixpointResult.done { st with currentEvaluation := none } item.changes tr ∧
      (st.hasErrorReporter = true →
        Event.errorReported "Fixpoint Error" "Evaluation failed to fixpoint" ∈ tr) ∧
      (st.hasErrorReporter = false →
        Event.consoleError "Fixpoint Error" "Evaluation failed to fixpoint" ∈ tr) ∧
      (∀ db ∈ st.databases, Event.fixpointNotify db.id ∈ tr) ∧
      (item.hasCallback = true → Event.callbackInvoked item.changes ∈ tr) := by
  have hnot : ¬(item.changes.changed = true ∧ item.changes.round < MAX_ROUNDS) := by
    intro hc
    rw [h1] at hc
    exact absurd hc.2 (lt_irrefl _)
  have hstep : st.fixpointRound item blocks =
      FixpointResult.done { st with currentEvaluation := none } item.changes
        ((if MAX_ROUNDS ≤ item.changes.round then
            [st.errorEvent "Fixpoint Error" "Evaluation failed to fixpoint"] else []) ++
          notifyEvents st item.changes ++
          (if item.hasCallback then [Event.callbackInvoked item.changes] else [])) := by
    unfold EvalState.fixpointRound
    rw [fixpointGo]
    simp only [if_neg hnot]
  refine ⟨_, hstep, ?_, ?_, ?_, ?_⟩
  · intro hrep
    have hb : MAX_ROUNDS ≤ item.changes.round := by rw [h1]
    rw [if_pos hb]
    apply List.mem_append_left
    apply List.mem_append_left
    simp [EvalState.errorEvent, hrep]
  · intro hrep
    have hb : MAX_ROUNDS ≤ item.changes.round := by rw [h1]
    rw [if_pos hb]
    apply List.mem_append_left
    apply List.mem_append_left
    simp [EvalState.errorEvent, hrep]
  · intro db hdb
    apply List.mem_append_left
    apply List.mem_append_right
    exact fixpointNotify_mem_notifyEvents st item.changes db hdb
  · intro hcb
    apply List.mem_append_right
    rw [if_pos hcb]
    exact List.mem_singleton.mpr rfl

/-- Witness for C2: a concrete diverged evaluation (round = 300, changed
still set, one database, a reporter installed, a callback attached) ends
with the slot cleared, the error reported, the database notified and the
callback invoked. -/
theorem claim_C2_divergence_effects_witness :
    ∃ tr, ({ emptyEvalState with databases := [sampleDb] } : EvalState).fixpointRound
        { type := QueuedType.actions, hasCallback := true,
          changes := { round := 300, changed := true, staged := [], committed := [] } } [] =
        FixpointResult.done
          { ({ emptyEvalState with databases := [sampleDb] } : EvalState) with
            currentEvaluation := none }
          ({ type := QueuedType.actions, hasCallback := true,
             changes := { round := 300, changed := true, staged := [],
                          committed := [] } } : QueuedEvaluation).changes tr ∧
      (({ emptyEvalState with databases := [sampleDb] } : EvalState).hasErrorReporter = true →
        Event.errorReported "Fixpoint Error" "Evaluation failed to fixpoint" ∈ tr) ∧
      (({ emptyEvalState with databases := [sampleDb] } : EvalState).hasErrorReporter = false →
        Event.consoleError "Fixpoint Error" "Evaluation failed to fixpoint" ∈ tr) ∧
      (∀ db ∈ ({ emptyEvalState with databases := [sampleDb] } : EvalState).databases,
        Event.fixpointNotify db.id ∈ tr) ∧
      (({ type := QueuedType.actions, hasCallback := true,
          changes := { round := 300, changed := true, staged := [],
                       committed := [] } } : QueuedEvaluation).hasCallback = true →
        Event.callbackInvoked
          ({ type := QueuedType.actions, hasCallback := true,
             changes := { round := 300, changed := true, staged := [],
                          committed := [] } } : QueuedEvaluation).changes ∈ tr) :=
  claim_C2_divergence_effects { emptyEvalState with databases := [sampleDb] }
    { type := QueuedType.actions, hasCallback := true,
      changes := { round := 300, changed := true, staged := [], committed := [] } }
    [] rfl rfl

theorem resumeWrap_round_shape (r : Nat) (l : List Event) (res : FixpointResult) :
    (resumeWrap (Event.roundStarted r :: l) res).trace = [] ∨
    (∃ r2 rest, (resumeWrap (Event.roundStarted r :: l) res).trace =
      Event.roundStarted r2 :: rest) ∨
    (∀ e ∈ (resumeWrap (Event.roundStarted r :: l) res).trace,
      Event.roundOf e = none ∧ Event.isCommitCalled e = false ∧
        Event.isItemSched e = false) := by
  cases res with
  | done st3 ch tr => exact Or.inr (Or.inl ⟨r, l ++ tr, rfl⟩)
  | parked st3 tr => exact Or.inr (Or.inl ⟨r, l ++ tr, rfl⟩)
  | crashed st3 m tr => exact Or.inr (Or.inl ⟨r, l ++ tr, rfl⟩)
  | outOfFuel => exact Or.inl rfl

theorem fixpointGo_trace_shape (fuel : Nat) (st : EvalState) (item : QueuedEvaluation)
    (blocks : List Block) :
    (fixpointGo fuel st item blocks).trace = [] ∨
    (∃ r rest, (fixpointGo fuel st item blocks).trace = Event.roundStarted r :: rest) ∨
    (∀ e ∈ (fixpointGo fuel st item blocks).trace,
      Event.roundOf e = none ∧ Event.isCommitCalled e = false ∧
        Event.isItemSched e = false) := by
  cases fuel with
  | zero => exact Or.inl rfl
  | succ fuel =>
    rw [fixpointGo]
    dsimp only
    split
    · split
      · exact Or.inr (Or.inl ⟨_, _, rfl⟩)
      · split
        · exact resumeWrap_round_shape _ _ _
        · exact Or.inr (Or.inl ⟨_, _, rfl⟩)
    · refine Or.inr (Or.inr ?_)
      intro e he
      exact terminalEvents_shape st _ e he

theorem fixpointGo_no_commit_before_round (fuel : Nat) (st : EvalState)
    (item : QueuedEvaluation) (blocks : List Block) :
    noCommitBeforeFirstRound (fixpointGo fuel st item blocks).trace = true := by
  rcases fixpointGo_trace_shape fuel st item blocks with h | ⟨r, rest, h⟩ | h
  · rw [h]
    rfl
  · rw [h]
    unfold noCommitBeforeFirstRound
    simp [Event.isRoundStarted, Event.roundOf]
  · unfold noCommitBeforeFirstRound
    rw [List.all_eq_true]
    intro e he
    have hmem : e ∈ (fixpointGo fuel st item blocks).trace :=
      (List.takeWhile_sublist _).subset he
    simp [(h e hmem).2.1]

/-- C4: draining an Actions work item folds every action's staged effects
into the item's shared change set in order, commits exactly once after all
actions have staged (the one commitCalled event of the staging phase; the
round loop never commits again before its first round starts), and enters
the fixpoint with the block set computed by blocksFromCommit from that
single committed delta. -/
theorem claim_C4_actions_single_commit (st : EvalState) (item : QueuedEvaluation)
    (h : item.type = QueuedType.actions) :
    st.processItem item =
      some (EvalState.fixpoint { st with multiIndex := (seedCommit st item).multiIndex }
              (seedCommit st item).changes
              (EvalState.blocksFromCommit
                { st with multiIndex := (seedCommit st item).multiIndex }
                (seedCommit st item).commit)
              item.hasCallback item.itemId,
            [Event.commitCalled (seedCommit st item).changes.round]) ∧
    noCommitBeforeFirstRound
      (EvalState.fixpoint { st with multiIndex := (seedCommit st item).multiIndex }
        (seedCommit st item).changes
        (EvalState.blocksFromCommit { st with multiIndex := (seedCommit st item).multiIndex }
          (seedCommit st item).commit)
        item.hasCallback item.itemId).trace = true := by
  constructor
  · unfold EvalState.processItem
    rw [h]
    rfl
  · exact fixpointGo_no_commit_before_round _ _ _ _

/-- Witness for C4: one concrete action item staged, committed once and
fixpointed on the commit's block set. -/
theorem claim_C4_actions_single_commit_witness :
    emptyEvalState.processItem
        { type := QueuedType.actions, actions := [sampleAction], itemId := 3 } =
      some (EvalState.fixpoint
              { emptyEvalState with multiIndex :=
                  (seedCommit emptyEvalState
                    { type := QueuedType.actions, actions := [sampleAction],
                      itemId := 3 }).multiIndex }
              (seedCommit emptyEvalState
                { type := QueuedType.actions, actions := [sampleAction], itemId := 3 }).changes
              (EvalState.blocksFromCommit
                { emptyEvalState with multiIndex :=
                    (seedCommit emptyEvalState
                      { type := QueuedType.actions, actions := [sampleAction],
                        itemId := 3 }).multiIndex }
                (seedCommit emptyEvalState
                  { type := QueuedType.actions, actions := [sampleAction],
                    itemId := 3 }).commit)
              false 3,
            [Event.commitCalled
              (seedCommit emptyEvalState
                { type := QueuedType.actions, actions := [sampleAction],
                  itemId := 3 }).changes.round]) ∧
    noCommitBeforeFirstRound
      (EvalState.fixpoint
        { emptyEvalState with multiIndex :=
            (seedCommit emptyEvalState
              { type := QueuedType.actions, actions := [sampleAction],
                itemId := 3 }).multiIndex }
        (seedCommit emptyEvalState
          { type := QueuedType.actions, actions := [sampleAction], itemId := 3 }).changes
        (EvalState.blocksFromCommit
          { emptyEvalState with multiIndex :=
              (seedCommit emptyEvalState
                { type := QueuedType.actions, actions := [sampleAction],
                  itemId := 3 }).multiIndex }
          (seedCommit emptyEvalState
            { type := QueuedType.actions, actions := [sampleAction], itemId := 3 }).commit)
        false 3).trace = true :=
  claim_C4_actions_single_commit emptyEvalState
    { type := QueuedType.actions, actions := [sampleAction], itemId := 3 } rfl

theorem roundsOf_nil : roundsOf [] = [] := rfl

theorem roundsOf_cons_round (r : Nat) (l : List Event) :
    roundsOf (Event.roundStarted r :: l) = r :: roundsOf l := by
  simp [roundsOf, List.filterMap_cons, Event.roundOf]

theorem roundsOf_cons_commit (r : Nat) (l : List Event) :
    roundsOf (Event.commitCalled r :: l) = roundsOf l := by
  simp [roundsOf, List.filterMap_cons, Event.roundOf]

theorem roundsOf_append (l1 l2 : List Event) :
    roundsOf (l1 ++ l2) = roundsOf l1 ++ roundsOf l2 := by
  simp [roundsOf, List.filterMap_append]

theorem roundsOf_terminal (st : EvalState) (item : QueuedEvaluation) :
    roundsOf ((if MAX_ROUNDS ≤ item.changes.round then
        [st.errorEvent "Fixpoint Error" "Evaluation failed to fixpoint"] else []) ++
      notifyEvents st item.changes ++
      (if item.hasCallback then [Event.callbackInvoked item.changes] else [])) = [] := by
  unfold roundsOf
  rw [List.filterMap_eq_nil_iff]
  intro e he
  exact (terminalEvents_shape st item e he).1

theorem round_props_step (fuel r0 cr : Nat) (st2 : EvalState) (it2 : QueuedEvaluation)
    (blocks2 : List Block) (evs : List Event)
    (ih : ∀ (st : EvalState) (it : QueuedEvaluation) (bl : List Block),
      0 < fuel → MAX_ROUNDS < fuel + it.changes.round →
      (fixpointGo fuel st it bl ≠ FixpointResult.outOfFuel) ∧
      (roundsOf (fixpointGo fuel st it bl).trace =
        List.range' (it.changes.round + 1)
          (roundsOf (fixpointGo fuel st it bl).trace).length) ∧
      (∀ r ∈ roundsOf (fixpointGo fuel st it bl).trace, r ≤ MAX_ROUNDS) ∧
      (∀ st3 ch tr, fixpointGo fuel st it bl = FixpointResult.done st3 ch tr →
        ch.round = it.changes.round + (roundsOf tr).length ∧
        (MAX_ROUNDS ≤ ch.round →
          (Event.errorReported "Fixpoint Error" "Evaluation failed to fixpoint" ∈ tr ∨
           Event.consoleError "Fixpoint Error" "Evaluation failed to fixpoint" ∈ tr))))
    (hevs : roundsOf evs = [])
    (hr : it2.changes.round = r0 + 1)
    (hb : r0 < MAX_ROUNDS)
    (hf : MAX_ROUNDS < fuel + 1 + r0) :
    (resumeWrap (Event.roundStarted (r0 + 1) :: evs ++ [Event.commitCalled cr])
        (fixpointGo fuel st2 it2 blocks2) ≠ FixpointResult.outOfFuel) ∧
    (roundsOf (resumeWrap (Event.roundStarted (r0 + 1) :: evs ++ [Event.commitCalled cr])
        (fixpointGo fuel st2 it2 blocks2)).trace =
      List.range' (r0 + 1)
        (roundsOf (resumeWrap (Event.roundStarted (r0 + 1) :: evs ++ [Event.commitCalled cr])
          (fixpointGo fuel st2 it2 blocks2)).trace).length) ∧
    (∀ r ∈ roundsOf (resumeWrap (Event.roundStarted (r0 + 1) :: evs ++ [Event.commitCalled cr])
        (fixpointGo fuel st2 it2 blocks2)).trace, r ≤ MAX_ROUNDS) ∧
    (∀ st3 ch tr,
      resumeWrap (Event.roundStarted (r0 + 1) :: evs ++ [Event.commitCalled cr])
        (fixpointGo fuel st2 it2 blocks2) = FixpointResult.done st3 ch tr →
      ch.round = r0 + (roundsOf tr).length ∧
      (MAX_ROUNDS ≤ ch.round →
        (Event.errorReported "Fixpoint Error" "Evaluation failed to fixpoint" ∈ tr ∨
         Event.consoleError "Fixpoint Error" "Evaluation failed to fixpoint" ∈ tr))) := by
  have h0 : 0 < fuel := by omega
  have hf2 : MAX_ROUNDS < fuel + it2.changes.round := by omega
  obtain ⟨A, B, C, D⟩ := ih st2 it2 blocks2 h0 hf2
  rw [hr] at B
  cases hx : fixpointGo fuel st2 it2 blocks2 with
  | outOfFuel => exact absurd hx A
  | done st3 ch tr =>
    rw [hx] at B C D
    simp only [FixpointResult.trace] at B C
    simp only [resumeWrap, FixpointResult.trace]
    have hpre : roundsOf ((Event.roundStarted (r0 + 1) :: evs ++ [Event.commitCalled cr]) ++ tr) =
        (r0 + 1) :: roundsOf tr := by
      simp [roundsOf_append, roundsOf_cons_round, roundsOf_cons_commit, roundsOf_nil, hevs]
    refine ⟨fun h => FixpointResult.noConfusion h, ?_, ?_, ?_⟩
    · rw [hpre]
      rw [List.length_cons, List.range'_succ]
      rw [show r0 + 1 + 1 = r0 + 2 from rfl] at B ⊢
      rw [← B]
    · intro r hrm
      rw [hpre] at hrm
      rcases List.mem_cons.mp hrm with rfl | hrm
      · omega
      · exact C r hrm
    · intro st3a cha tra heq
      injection heq with e1 e2 e3
      subst e1
      subst e2
      subst e3
      obtain ⟨d1, d2⟩ := D st3 ch tr rfl
      rw [hr] at d1
      constructor
      · rw [hpre, List.length_cons]
        omega
      · intro hbig
        rcases d2 hbig with h | h
        · exact Or.inl (List.mem_append_right _ h)
        · exact Or.inr (List.mem_append_right _ h)
  | parked st3 tr =>
    rw [hx] at B C
    simp only [FixpointResult.trace] at B C
    simp only [resumeWrap, FixpointResult.trace]
    have hpre : roundsOf ((Event.roundStarted (r0 + 1) :: evs ++ [Event.commitCalled cr]) ++ tr) =
        (r0 + 1) :: roundsOf tr := by
      simp [roundsOf_append, roundsOf_cons_round, roundsOf_cons_commit, roundsOf_nil, hevs]
    refine ⟨fun h => FixpointResult.noConfusion h, ?_, ?_, ?_⟩
    · rw [hpre]
      rw [List.length_cons, List.range'_succ]
      rw [show r0 + 1 + 1 = r0 + 2 from rfl] at B ⊢
      rw [← B]
    · intro r hrm
      rw [hpre] at hrm
      rcases List.mem_cons.mp hrm with rfl | hrm
      · omega
      · exact C r hrm
    · intro st3a cha tra heq
      cases heq
  | crashed st3 m tr =>
    rw [hx] at B C
    simp only [FixpointResult.trace] at B C
    simp only [resumeWrap, FixpointResult.trace]
    have hpre : roundsOf ((Event.roundStarted (r0 + 1) :: evs ++ [Event.commitCalled cr]) ++ tr) =
        (r0 + 1) :: roundsOf tr := by
      simp [roundsOf_append, roundsOf_cons_round, roundsOf_cons_commit, roundsOf_nil, hevs]
    refine ⟨fun h => FixpointResult.noConfusion h, ?_, ?_, ?_⟩
    · rw [hpre]
      rw [List.length_cons, List.range'_succ]
      rw [show r0 + 1 + 1 = r0 + 2 from rfl] at B ⊢
      rw [← B]
    · intro r hrm
      rw [hpre] at hrm
      rcases List.mem_cons.mp hrm with rfl | hrm
      · omega
      · exact C r hrm
    · intro st3a cha tra heq
      cases heq

theorem fixpointGo_round_props (fuel : Nat) :
    ∀ (st : EvalState) (item : QueuedEvaluation) (blocks : List Block),
      0 < fuel → MAX_ROUNDS < fuel + item.changes.round →
      (fixpointGo fuel st item blocks ≠ FixpointResult.outOfFuel) ∧
      (roundsOf (fixpointGo fuel st item blocks).trace =
        List.range' (item.changes.round + 1)
          (roundsOf (fixpointGo fuel st item blocks).trace).length) ∧
      (∀ r ∈ roundsOf (fixpointGo fuel st item blocks).trace, r ≤ MAX_ROUNDS) ∧
      (∀ st2 ch tr, fixpointGo fuel st item blocks = FixpointResult.done st2 ch tr →
        ch.round = item.changes.round + (roundsOf tr).length ∧
        (MAX_ROUNDS ≤ ch.round →
          (Event.errorReported "Fixpoint Error" "Evaluation failed to fixpoint" ∈ tr ∨
           Event.consoleError "Fixpoint Error" "Evaluation failed to fixpoint" ∈ tr))) := by
  induction fuel with
  | zero =>
    intro st item blocks h0 _
    exact absurd h0 (by omega)
  | succ fuel ih =>
    intro st item blocks h0 hf
    by_cases hc : item.changes.changed = true ∧ item.changes.round < MAX_ROUNDS
    · obtain ⟨hc1, hc2⟩ := hc
      rw [fixpointGo]
      dsimp only
      simp only [if_pos (And.intro hc1 hc2)]
      split
      · refine ⟨fun h => FixpointResult.noConfusion h, ?_, ?_, ?_⟩
        · rw [FixpointResult.trace, roundsOf_cons_round, roundsOf_execBlocks]
          rfl
        · intro r hrm
          rw [FixpointResult.trace, roundsOf_cons_round, roundsOf_execBlocks] at hrm
          rcases List.mem_singleton.mp hrm with rfl
          show item.changes.round + 1 ≤ MAX_ROUNDS
          omega
        · intro st2 ch tr heq
          cases heq
      · split
        · apply round_props_step
          · exact ih
          · exact roundsOf_execBlocks _ _ _
          · exact execBlocks_round st.multiIndex blocks
              { item with waitingCount := 0, changes := item.changes.nextRound }
          · exact hc2
          · omega
        · refine ⟨fun h => FixpointResult.noConfusion h, ?_, ?_, ?_⟩
          · rw [FixpointResult.trace, roundsOf_cons_round, roundsOf_execBlocks]
            rfl
          · intro r hrm
            rw [FixpointResult.trace, roundsOf_cons_round, roundsOf_execBlocks] at hrm
            rcases List.mem_singleton.mp hrm with rfl
            show item.changes.round + 1 ≤ MAX_ROUNDS
            omega
          · intro st2 ch tr heq
            cases heq
    · have hstep : fixpointGo (fuel + 1) st item blocks =
          FixpointResult.done { st with currentEvaluation := none } item.changes
            ((if MAX_ROUNDS ≤ item.changes.round then
                [st.errorEvent "Fixpoint Error" "Evaluation failed to fixpoint"] else []) ++
              notifyEvents st item.changes ++
              (if item.hasCallback then [Event.callbackInvoked item.changes] else [])) := by
        rw [fixpointGo]
        simp only [if_neg hc]
      rw [hstep]
      refine ⟨fun h => FixpointResult.noConfusion h, ?_, ?_, ?_⟩
      · rw [FixpointResult.trace, roundsOf_terminal]
        rfl
      · intro r hrm
        rw [FixpointResult.trace, roundsOf_terminal] at hrm
        cases hrm
      · intro st2 ch tr heq
        injection heq with e1 e2 e3
        subst e2
        subst e3
        constructor
        · rw [roundsOf_terminal]
          rfl
        · intro hbig
          by_cases hrep : st.hasErrorReporter = true
          · refine Or.inl ?_
            apply List.mem_append_left
            apply List.mem_append_left
            rw [if_pos hbig]
            simp [EvalState.errorEvent, hrep]
          · refine Or.inr ?_
            apply List.mem_append_left
            apply List.mem_append_left
            rw [if_pos hbig]
            simp [EvalState.errorEvent, hrep]

/-- C1: for every program state, work item and block set, the fixpoint
driver terminates (the MAX_ROUNDS + 1 recursion allowance never runs out):
the rounds it starts are exactly round+1, round+2, ... (changes.round is
advanced by exactly one per round), at most MAX_ROUNDS rounds run, no
started round exceeds MAX_ROUNDS, and a completed fixpoint whose final
round reached MAX_ROUNDS has emitted the divergence error. -/
theorem claim_C1_fixpoint_termination (st : EvalState) (item : QueuedEvaluation)
    (blocks : List Block) :
    st.fixpointRound item blocks ≠ FixpointResult.outOfFuel ∧
    roundsOf (st.fixpointRound item blocks).trace =
      List.range' (item.changes.round + 1)
        (roundsOf (st.fixpointRound item blocks).trace).length ∧
    (roundsOf (st.fixpointRound item blocks).trace).length ≤ MAX_ROUNDS ∧
    (∀ r ∈ roundsOf (st.fixpointRound item blocks).trace, r ≤ MAX_ROUNDS) ∧
    (∀ st2 ch tr, st.fixpointRound item blocks = FixpointResult.done st2 ch tr →
      MAX_ROUNDS ≤ ch.round →
      (Event.errorReported "Fixpoint Error" "Evaluation failed to fixpoint" ∈ tr ∨
       Event.consoleError "Fixpoint Error" "Evaluation failed to fixpoint" ∈ tr)) := by
  obtain ⟨A, B, C, D⟩ :=
    fixpointGo_round_props (MAX_ROUNDS + 1) st item blocks (by omega) (by omega)
  refine ⟨A, B, ?_, C, fun st2 ch tr heq hbig => (D st2 ch tr heq).2 hbig⟩
  show (roundsOf (fixpointGo (MAX_ROUNDS + 1) st item blocks).trace).length ≤ MAX_ROUNDS
  by_cases hk : (roundsOf (fixpointGo (MAX_ROUNDS + 1) st item blocks).trace).length = 0
  · omega
  · have hmem : item.changes.round +
        (roundsOf (fixpointGo (MAX_ROUNDS + 1) st item blocks).trace).length ∈
        List.range' (item.changes.round + 1)
          (roundsOf (fixpointGo (MAX_ROUNDS + 1) st item blocks).trace).length := by
      rw [List.mem_range'_1]
      omega
    rw [← B] at hmem
    have := C _ hmem
    omega

theorem lookupTags_inv (mi : MultiIndex) (s : ScanState) (e : Val) (h : ScanInv mi s) :
    (lookupTags mi s e).1 = mi.dangerousMergeLookup e "tag" ∧
    ScanInv mi (lookupTags mi s e).2 := by
  unfold lookupTags
  cases hf : s.cache.find? (fun p => p.1 == e) with
  | some p =>
    have hmem := List.mem_of_find?_eq_some hf
    have hpe : p.1 = e := by
      have hb := List.find?_some hf
      simpa using hb
    constructor
    · show p.2 = mi.dangerousMergeLookup e "tag"
      rw [h.1 p hmem, hpe]
    · exact h
  | none =>
    have hnone := List.find?_eq_none.mp hf
    have hlog : e ∉ s.log := by
      intro hmem
      rw [h.2.1] at hmem
      rcases List.mem_map.mp hmem with ⟨q, hq, hqe⟩
      exact hnone q hq (by simp [hqe])
    refine ⟨rfl, ?_, ?_, ?_⟩
    · intro q hq
      rcases List.mem_append.mp hq with hq | hq
      · exact h.1 q hq
      · rcases List.mem_singleton.mp hq with rfl
        rfl
    · show s.log ++ [e] = (s.cache ++ [(e, mi.dangerousMergeLookup e "tag")]).map Prod.fst
      rw [List.map_append, h.2.1]
      rfl
    · show (s.log ++ [e]).Nodup
      rw [List.nodup_append]
      refine ⟨h.2.2, List.nodup_singleton e, ?_⟩
      intro x hx hx2
      rcases List.mem_singleton.mp hx2 with rfl
      exact hlog hx

theorem scanChanges_spec (mi : MultiIndex) (ck : Checker) :
    ∀ (l : List CommitEntry) (s : ScanState), ScanInv mi s →
      (scanChanges mi ck s l).1 = l.any (matchesChange mi ck) ∧
      ScanInv mi (scanChanges mi ck s l).2 := by
  intro l
  induction l with
  | nil => intro s h; exact ⟨rfl, h⟩
  | cons ch rest ih =>
    intro s h
    obtain ⟨hfst, hinv⟩ := lookupTags_inv mi s ch.e h
    unfold scanChanges
    dsimp only
    rw [hfst]
    by_cases hm : ck.check mi ch.change (mi.dangerousMergeLookup ch.e "tag") ch.e ch.a ch.v = true
    · rw [if_pos hm]
      constructor
      · show true = (ch :: rest).any (matchesChange mi ck)
        rw [List.any_cons]
        have : matchesChange mi ck ch = true := hm
        rw [this, Bool.true_or]
      · exact hinv
    · rw [if_neg hm]
      obtain ⟨ih1, ih2⟩ := ih (lookupTags mi s ch.e).2 hinv
      refine ⟨?_, ih2⟩
      rw [ih1, List.any_cons]
      have : matchesChange mi ck ch = false := by
        simpa [matchesChange] using hm
      rw [this, Bool.false_or]

theorem scanChanges_early (mi : MultiIndex) (ck : Checker) :
    ∀ (pre : List CommitEntry) (s : ScanState) (ch : CommitEntry) (post : List CommitEntry),
      ScanInv mi s →
      pre.all (fun c => !matchesChange mi ck c) = true →
      matchesChange mi ck ch = true →
      scanChanges mi ck s (pre ++ ch :: post) = scanChanges mi ck s (pre ++ [ch]) := by
  intro pre
  induction pre with
  | nil =>
    intro s ch post hinv _ hm
    obtain ⟨hfst, _⟩ := lookupTags_inv mi s ch.e hinv
    rw [List.nil_append, List.nil_append]
    unfold scanChanges
    dsimp only
    rw [hfst]
    have hm2 : ck.check mi ch.change (mi.dangerousMergeLookup ch.e "tag") ch.e ch.a ch.v = true := hm
    rw [if_pos hm2, if_pos hm2]
  | cons c pre ih =>
    intro s ch post hinv hall hm
    rw [List.all_cons] at hall
    have hc : matchesChange mi ck c = false := by
      have h1 := (Bool.and_eq_true _ _).mp hall
      simpa using h1.1
    obtain ⟨hfst, hinv2⟩ := lookupTags_inv mi s c.e hinv
    rw [List.cons_append, List.cons_append]
    unfold scanChanges
    dsimp only
    rw [hfst]
    have hc2 : ¬(ck.check mi c.change (mi.dangerousMergeLookup c.e "tag") c.e c.a c.v = true) := by
      intro hx
      rw [show (ck.check mi c.change (mi.dangerousMergeLookup c.e "tag") c.e c.a c.v) =
        matchesChange mi ck c from rfl] at hx
      rw [hc] at hx
      cases hx
    rw [if_neg hc2, if_neg hc2]
    exact ih (lookupTags mi s c.e).2 ch post hinv2
      ((Bool.and_eq_true _ _).mp hall).2 hm

theorem scanBlocks_spec (mi : MultiIndex) (commit : List CommitEntry) :
    ∀ (bs : List Block) (s : ScanState) (b : Block), ScanInv mi s →
      ((b ∈ (scanBlocks mi commit s bs).1 ↔
        b ∈ bs ∧ b.dormant = false ∧ commit.any (matchesChange mi b.checker) = true)) ∧
      ScanInv mi (scanBlocks mi commit s bs).2 := by
  intro bs
  induction bs with
  | nil =>
    intro s b h
    refine ⟨?_, h⟩
    simp [scanBlocks]
  | cons hd rest ih =>
    intro s b hinv
    unfold scanBlocks
    by_cases hd1 : hd.dormant = true
    · rw [if_pos hd1]
      obtain ⟨ihm, ihinv⟩ := ih s b hinv
      refine ⟨?_, ihinv⟩
      rw [ihm]
      constructor
      · rintro ⟨hb, hd2, hany⟩
        exact ⟨List.mem_cons_of_mem _ hb, hd2, hany⟩
      · rintro ⟨hb, hd2, hany⟩
        rcases List.mem_cons.mp hb with rfl | hb
        · rw [hd1] at hd2
          cases hd2
        · exact ⟨hb, hd2, hany⟩
    · rw [if_neg hd1]
      obtain ⟨hfst, hinv1⟩ := scanChanges_spec mi hd.checker commit s hinv
      obtain ⟨ihm, ihinv⟩ := ih (scanChanges mi hd.checker s commit).2 b hinv1
      refine ⟨?_, ihinv⟩
      dsimp only
      by_cases hp : (scanChanges mi hd.checker s commit).1 = true
      · rw [if_pos hp]
        constructor
        · intro hb
          rcases List.mem_append.mp hb with hb | hb
          · rcases List.mem_singleton.mp hb with rfl
            refine ⟨List.mem_cons_self _ _, by simpa using hd1, ?_⟩
            rw [← hfst]
            exact hp
          · obtain ⟨hb2, hd2, hany⟩ := ihm.mp hb
            exact ⟨List.mem_cons_of_mem _ hb2, hd2, hany⟩
        · rintro ⟨hb, hd2, hany⟩
          rcases List.mem_cons.mp hb with rfl | hb
          · exact List.mem_append_left _ (List.mem_singleton.mpr rfl)
          · exact List.mem_append_right _ (ihm.mpr ⟨hb, hd2, hany⟩)
      · rw [if_neg hp, List.nil_append]
        rw [ihm]
        constructor
        · rintro ⟨hb, hd2, hany⟩
          exact ⟨List.mem_cons_of_mem _ hb, hd2, hany⟩
        · rintro ⟨hb, hd2, hany⟩
          rcases List.mem_cons.mp hb with rfl | hb
          · rw [← hfst] at hany
            exact absurd hany hp
          · exact ⟨hb, hd2, hany⟩

theorem blocksFromCommitAux_spec (mi : MultiIndex) (commit : List CommitEntry) :
    ∀ (dbs : List Database) (s : ScanState) (b : Block), ScanInv mi s →
      ((b ∈ (blocksFromCommitAux mi commit s dbs).1 ↔
        ∃ db, db ∈ dbs ∧ db.nonExecuting = false ∧ b ∈ db.blocks ∧
          b.dormant = false ∧ commit.any (matchesChange mi b.checker) = true)) ∧
      ScanInv mi (blocksFromCommitAux mi commit s dbs).2 := by
  intro dbs
  induction dbs with
  | nil =>
    intro s b h
    refine ⟨?_, h⟩
    simp [blocksFromCommitAux]
  | cons d rest ih =>
    intro s b hinv
    unfold blocksFromCommitAux
    by_cases hd1 : d.nonExecuting = true
    · rw [if_pos hd1]
      obtain ⟨ihm, ihinv⟩ := ih s b hinv
      refine ⟨?_, ihinv⟩
      rw [ihm]
      constructor
      · rintro ⟨db, hdb, hne, hb, hd2, hany⟩
        exact ⟨db, List.mem_cons_of_mem _ hdb, hne, hb, hd2, hany⟩
      · rintro ⟨db, hdb, hne, hb, hd2, hany⟩
        rcases List.mem_cons.mp hdb with rfl | hdb
        · rw [hd1] at hne
          cases hne
        · exact ⟨db, hdb, hne, hb, hd2, hany⟩
    · rw [if_neg hd1]
      obtain ⟨hbm, hinv1⟩ := scanBlocks_spec mi commit d.blocks s b hinv
      obtain ⟨ihm, ihinv⟩ := ih (scanBlocks mi commit s d.blocks).2 b hinv1
      refine ⟨?_, ihinv⟩
      dsimp only
      constructor
      · intro hb
        rcases List.mem_append.mp hb with hb | hb
        · obtain ⟨hb2, hd2, hany⟩ := hbm.mp hb
          exact ⟨d, List.mem_cons_self _ _, by simpa using hd1, hb2, hd2, hany⟩
        · obtain ⟨db, hdb, hne, hb2, hd2, hany⟩ := ihm.mp hb
          exact ⟨db, List.mem_cons_of_mem _ hdb, hne, hb2, hd2, hany⟩
      · rintro ⟨db, hdb, hne, hb2, hd2, hany⟩
        rcases List.mem_cons.mp hdb with rfl | hdb
        · exact List.mem_append_left _ (hbm.mpr ⟨hb2, hd2, hany⟩)
        · exact List.mem_append_right _ (ihm.mpr ⟨db, hdb, hne, hb2, hd2, hany⟩)

/-- C3: blocksFromCommit selects exactly the blocks of some non-executing
database that are not dormant and whose checker accepts at least one changed
triple of the commit (with the tags of the triple's entity taken from the
tag merge lookup); the per-block scan of the commit stops at the first
matching change (the scan of pre ++ ch :: post equals the scan of
pre ++ [ch] when ch is the first match); and over the whole scan the tag
merge lookup runs at most once per entity (the lookup log has no
duplicates). -/
theorem claim_C3_blocksFromCommit_filter (st : EvalState) (commit : List CommitEntry)
    (b : Block) :
    (b ∈ st.blocksFromCommit commit ↔
      ∃ db, db ∈ st.databases ∧ db.nonExecuting = false ∧ b ∈ db.blocks ∧
        b.dormant = false ∧ commit.any (matchesChange st.multiIndex b.checker) = true) ∧
    (st.blocksFromCommitScan commit).log.Nodup ∧
    (∀ (ck : Checker) (s : ScanState) (pre post : List CommitEntry) (ch : CommitEntry),
      ScanInv st.multiIndex s →
      pre.all (fun c => !matchesChange st.multiIndex ck c) = true →
      matchesChange st.multiIndex ck ch = true →
      scanChanges st.multiIndex ck s (pre ++ ch :: post) =
        scanChanges st.multiIndex ck s (pre ++ [ch])) := by
  have hinv0 : ScanInv st.multiIndex ⟨[], []⟩ := by
    refine ⟨?_, rfl, List.nodup_nil⟩
    intro p hp
    cases hp
  obtain ⟨hm, hinv⟩ :=
    blocksFromCommitAux_spec st.multiIndex commit st.databases ⟨[], []⟩ b hinv0
  exact ⟨hm, hinv.2.2,
    fun ck s pre post ch h1 h2 h3 => scanChanges_early st.multiIndex ck pre s ch post h1 h2 h3⟩

/-- Witness for C3 at a concrete state: a block activated by a tag change is
selected, the log of the scan has no duplicates, and a concrete scan stops
at its first matching change. -/
theorem claim_C3_blocksFromCommit_filter_witness :
    (tagBlock ∈ tagState.blocksFromCommit [tagCommitEntry] ↔
      ∃ db, db ∈ tagState.databases ∧ db.nonExecuting = false ∧ tagBlock ∈ db.blocks ∧
        tagBlock.dormant = false ∧
        ([tagCommitEntry] : List CommitEntry).any
          (matchesChange tagState.multiIndex tagBlock.checker) = true) ∧
    (tagState.blocksFromCommitScan [tagCommitEntry]).log.Nodup ∧
    scanChanges tagState.multiIndex tagChecker emptyScan
        ([⟨1, "e2", "kind", "x", "n1", 0⟩] ++
          tagCommitEntry :: [⟨1, "e3", "tag", "q", "n1", 0⟩]) =
      scanChanges tagState.multiIndex tagChecker emptyScan
        ([⟨1, "e2", "kind", "x", "n1", 0⟩] ++ [tagCommitEntry]) := by
  have hinv : ScanInv tagState.multiIndex emptyScan := by
    refine ⟨?_, rfl, List.nodup_nil⟩
    intro p hp
    cases hp
  refine ⟨(claim_C3_blocksFromCommit_filter tagState [tagCommitEntry] tagBlock).1,
    (claim_C3_blocksFromCommit_filter tagState [tagCommitEntry] tagBlock).2.1, ?_⟩
  exact (claim_C3_blocksFromCommit_filter tagState [] tagBlock).2.2
    tagChecker emptyScan [⟨1, "e2", "kind", "x", "n1", 0⟩]
    [⟨1, "e3", "tag", "q", "n1", 0⟩] tagCommitEntry hinv (by decide) (by decide)

theorem resumeWrap_trace_mem (pre : List Event) (res : FixpointResult) (e : Event)
    (h : e ∈ (resumeWrap pre res).trace) : e ∈ pre ∨ e ∈ res.trace := by
  cases res with
  | done a b c => exact List.mem_append.mp h
  | parked a b => exact List.mem_append.mp h
  | crashed a b c => exact List.mem_append.mp h
  | outOfFuel => cases h

theorem resumeWrap_done_inv (pre : List Event) (res : FixpointResult) (st3 : EvalState)
    (ch : Changes) (tr : List Event)
    (h : resumeWrap pre res = FixpointResult.done st3 ch tr) :
    ∃ tr0, res = FixpointResult.done st3 ch tr0 := by
  cases res with
  | done a b c =>
    simp only [resumeWrap] at h
    injection h with h1 h2 h3
    exact ⟨c, by rw [h1, h2]⟩
  | parked a b => exact FixpointResult.noConfusion h
  | crashed a b c => exact FixpointResult.noConfusion h
  | outOfFuel => exact FixpointResult.noConfusion h

theorem resumeWrap_parked_inv (pre : List Event) (res : FixpointResult) (st2 : EvalState)
    (tr : List Event) (h : resumeWrap pre res = FixpointResult.parked st2 tr) :
    ∃ tr0, res = FixpointResult.parked st2 tr0 := by
  cases res with
  | done a b c => exact FixpointResult.noConfusion h
  | parked a b =>
    simp only [resumeWrap] at h
    injection h with h1 h2
    exact ⟨b, by rw [h1]⟩
  | crashed a b c => exact FixpointResult.noConfusion h
  | outOfFuel => exact FixpointResult.noConfusion h

theorem fixpointGo_no_item_sched (fuel : Nat) :
    ∀ (st : EvalState) (item : QueuedEvaluation) (blocks : List Block) (e : Event),
      e ∈ (fixpointGo fuel st item blocks).trace → Event.isItemSched e = false := by
  induction fuel with
  | zero => intro st item blocks e he; cases he
  | succ fuel ih =>
    intro st item blocks e he
    rw [fixpointGo] at he
    dsimp only at he
    split at he
    · split at he
      · rw [FixpointResult.trace] at he
        rcases List.mem_cons.mp he with rfl | he
        · rfl
        · exact (execBlocks_evs_flags _ _ _ e he).2.2
      · split at he
        · rcases resumeWrap_trace_mem _ _ e he with he | he
          · rcases List.mem_append.mp he with he | he
            · rcases List.mem_cons.mp he with rfl | he
              · rfl
              · exact (execBlocks_evs_flags _ _ _ e he).2.2
            · rcases List.mem_singleton.mp he with rfl
              rfl
          · exact ih _ _ _ e he
        · rw [FixpointResult.trace] at he
          rcases List.mem_cons.mp he with rfl | he
          · rfl
          · exact (execBlocks_evs_flags _ _ _ e he).2.2
    · rw [FixpointResult.trace] at he
      exact (terminalEvents_shape st _ e he).2.2

theorem fixpointGo_no_parked (fuel : Nat) :
    ∀ (st : EvalState) (item : QueuedEvaluation) (blocks : List Block),
      item.waitingFor = none →
      ∀ st2 tr, fixpointGo fuel st item blocks ≠ FixpointResult.parked st2 tr := by
  induction fuel with
  | zero => intro st item blocks h st2 tr heq; cases heq
  | succ fuel ih =>
    intro st item blocks h st2 tr heq
    rw [fixpointGo] at heq
    dsimp only at heq
    split at heq
    · next hcond =>
      split at heq
      · cases heq
      · next hcr =>
        split at heq
        · obtain ⟨tr0, hres⟩ := resumeWrap_parked_inv _ _ _ _ heq
          refine ih _ _ _ ?_ _ _ hres
          exact (execBlocks_waitingFor_none st.multiIndex blocks
            { item with waitingCount := 0, changes := item.changes.nextRound } h).1
        · next hw =>
          have h3 : (execBlocks st.multiIndex
              { item with waitingCount := 0, changes := item.changes.nextRound }
              blocks).crashed = false := by
            simpa using hcr
          have h4 := (execBlocks_waitingFor_none st.multiIndex blocks
            { item with waitingCount := 0, changes := item.changes.nextRound } h).2 h3
          exact hw (by rw [h4])
    · cases heq

theorem fixpointGo_done_state (fuel : Nat) :
    ∀ (st : EvalState) (item : QueuedEvaluation) (blocks : List Block) (st3 : EvalState)
      (ch : Changes) (tr : List Event),
      fixpointGo fuel st item blocks = FixpointResult.done st3 ch tr →
      st3.currentEvaluation = none ∧ st3.evaluationQueue = st.evaluationQueue ∧
      st3.pendingDrains = st.pendingDrains ∧ st3.queued = st.queued := by
  induction fuel with
  | zero => intro st item blocks st3 ch tr heq; cases heq
  | succ fuel ih =>
    intro st item blocks st3 ch tr heq
    rw [fixpointGo] at heq
    dsimp only at heq
    split at heq
    · split at heq
      · cases heq
      · split at heq
        · obtain ⟨tr0, hres⟩ := resumeWrap_done_inv _ _ _ _ _ heq
          obtain ⟨g1, g2, g3, g4⟩ := ih _ _ _ _ _ _ hres
          exact ⟨g1, g2, g3, g4⟩
        · cases heq
    · injection heq with e1 e2 e3
      rw [← e1]
      exact ⟨rfl, rfl, rfl, rfl⟩

theorem startedIds_append (l m : List Event) :
    startedIds (l ++ m) = startedIds l ++ startedIds m := by
  simp [startedIds, List.filterMap_append]

theorem startedIds_nosched (l : List Event)
    (h : ∀ e ∈ l, Event.isItemSched e = false) : startedIds l = [] := by
  unfold startedIds
  rw [List.filterMap_eq_nil_iff]
  intro e he
  cases e with
  | itemStarted i => exact absurd (h _ he) (by simp [Event.isItemSched])
  | itemFinished i => rfl
  | roundStarted r => rfl
  | blockExecuted b => rfl
  | commitCalled r => rfl
  | errorReported k m => rfl
  | consoleError k m => rfl
  | fixpointNotify d => rfl
  | enqueuedOnPeer p c => rfl
  | callbackInvoked c => rfl

theorem wellNestedAux_append_nosched (l : List Event) :
    ∀ (m : List Event) (a : Bool), (∀ e ∈ l, Event.isItemSched e = false) →
      wellNestedAux (l ++ m) a = wellNestedAux m a := by
  induction l with
  | nil => intro m a _; rfl
  | cons e rest ih =>
    intro m a h
    have he := h e (List.mem_cons_self _ _)
    have ht : ∀ x ∈ rest, Event.isItemSched x = false :=
      fun x hx => h x (List.mem_cons_of_mem _ hx)
    cases e with
    | itemStarted i => exact absurd he (by simp [Event.isItemSched])
    | itemFinished i => exact absurd he (by simp [Event.isItemSched])
    | roundStarted r => exact ih m a ht
    | blockExecuted b => exact ih m a ht
    | commitCalled r => exact ih m a ht
    | errorReported k msg => exact ih m a ht
    | consoleError k msg => exact ih m a ht
    | fixpointNotify d => exact ih m a ht
    | enqueuedOnPeer p c => exact ih m a ht
    | callbackInvoked c => exact ih m a ht

theorem runTick_cons (st : EvalState) (item : QueuedEvaluation)
    (rest : List QueuedEvaluation) (hp : ¬st.pendingDrains = 0)
    (hq : st.evaluationQueue = item :: rest) (hty : ¬item.type = QueuedType.changes) :
    (∃ st3 tr, st.runTick = TickResult.ticked st3
        ((Event.itemStarted item.itemId :: tr) ++ [Event.itemFinished item.itemId]) ∧
      st3.currentEvaluation = none ∧ st3.evaluationQueue = rest ∧
      (∀ e ∈ tr, Event.isItemSched e = false)) ∨
    (∃ st3 m tr, st.runTick = TickResult.crashedTick st3 m
        (Event.itemStarted item.itemId :: tr) ∧
      (∀ e ∈ tr, Event.isItemSched e = false)) := by
  unfold EvalState.runTick
  rw [if_neg hp]
  dsimp only
  rw [show ({ st with pendingDrains := st.pendingDrains - 1 } :
    EvalState).evaluationQueue = item :: rest from hq]
  dsimp only
  unfold EvalState.processItem
  cases hty2 : item.type with
  | changes => exact absurd hty2 hty
  | commit =>
    dsimp only
    unfold EvalState.fixpoint
    dsimp only
    split
    · next st2 ch tr heq =>
      obtain ⟨g1, g2, g3, g4⟩ := fixpointGo_done_state _ _ _ _ _ _ _ heq
      have hns : ∀ e ∈ tr, Event.isItemSched e = false := by
        intro e he
        have hmem : e ∈ (FixpointResult.done st2 ch tr).trace := he
        rw [← heq] at hmem
        exact fixpointGo_no_item_sched (MAX_ROUNDS + 1) _ _ _ e hmem
      by_cases hqe : st2.evaluationQueue.isEmpty = true
      · rw [if_pos hqe]
        refine Or.inl ⟨{ st2 with queued := false }, [] ++ tr, by simp, g1, g2, ?_⟩
        intro e he
        rcases List.mem_append.mp he with he | he
        · cases he
        · exact hns e he
      · rw [if_neg hqe]
        refine Or.inl ⟨{ st2 with pendingDrains := st2.pendingDrains + 1 },
          [] ++ tr, by simp, g1, g2, ?_⟩
        intro e he
        rcases List.mem_append.mp he with he | he
        · cases he
        · exact hns e he
    · next st2 tr heq =>
      refine absurd heq (fixpointGo_no_parked (MAX_ROUNDS + 1) _ _ _ ?_ _ _)
      rfl
    · next st2 m tr heq =>
      refine Or.inr ⟨st2, m, [] ++ tr, by simp, ?_⟩
      intro e he
      rcases List.mem_append.mp he with he | he
      · cases he
      · have hmem : e ∈ (FixpointResult.crashed st2 m tr).trace := he
        rw [← heq] at hmem
        exact fixpointGo_no_item_sched (MAX_ROUNDS + 1) _ _ _ e hmem
    · exact Or.inr ⟨_, _, [], rfl, fun e he => absurd he (List.not_mem_nil e)⟩
  | actions =>
    dsimp only
    unfold EvalState.fixpoint
    dsimp only
    split
    · next st2 ch tr heq =>
      obtain ⟨g1, g2, g3, g4⟩ := fixpointGo_done_state _ _ _ _ _ _ _ heq
      have hns : ∀ e ∈ tr, Event.isItemSched e = false := by
        intro e he
        have hmem : e ∈ (FixpointResult.done st2 ch tr).trace := he
        rw [← heq] at hmem
        exact fixpointGo_no_item_sched (MAX_ROUNDS + 1) _ _ _ e hmem
      by_cases hqe : st2.evaluationQueue.isEmpty = true
      · rw [if_pos hqe]
        refine Or.inl ⟨{ st2 with queued := false },
          Event.commitCalled ((List.foldl (fun c a => c.stageAll (a.exec st.multiIndex [] c))
            item.changes item.actions).commit st.multiIndex).changes.round :: tr, by simp, g1, g2, ?_⟩
        intro e he
        rcases List.mem_cons.mp he with rfl | he
        · rfl
        · exact hns e he
      · rw [if_neg hqe]
        refine Or.inl ⟨{ st2 with pendingDrains := st2.pendingDrains + 1 },
          Event.commitCalled ((List.foldl (fun c a => c.stageAll (a.exec st.multiIndex [] c))
            item.changes item.actions).commit st.multiIndex).changes.round :: tr, by simp, g1, g2, ?_⟩
        intro e he
        rcases List.mem_cons.mp he with rfl | he
        · rfl
        · exact hns e he
    · next st2 tr heq =>
      refine absurd heq (fixpointGo_no_parked (MAX_ROUNDS + 1) _ _ _ ?_ _ _)
      rfl
    · next st2 m tr heq =>
      refine Or.inr ⟨st2, m,
        Event.commitCalled ((List.foldl (fun c a => c.stageAll (a.exec st.multiIndex [] c))
            item.changes item.actions).commit st.multiIndex).changes.round :: tr, by simp, ?_⟩
      intro e he
      rcases List.mem_cons.mp he with rfl | he
      · rfl
      · have hmem : e ∈ (FixpointResult.crashed st2 m tr).trace := he
        rw [← heq] at hmem
        exact fixpointGo_no_item_sched (MAX_ROUNDS + 1) _ _ _ e hmem
    · exact Or.inr ⟨_, _, [], rfl, fun e he => absurd he (List.not_mem_nil e)⟩

/-- C6: within one evaluation, the drain loop starts queued work items in
enqueue (FIFO) order — the identifiers of the items started are always a
prefix of the queue's identifiers in order — and at most one work item is
ever active at a time (no item starts while another is started and not yet
finished).  Queued items are the commit and actions items the public entry
points enqueue. -/
theorem claim_C6_queue_fifo_single_active (n : Nat) :
    ∀ (st : EvalState), st.currentEvaluation = none →
      (∀ it ∈ st.evaluationQueue, ¬it.type = QueuedType.changes) →
      (∃ k, startedIds (EvalState.runDrains n st).2 =
        (st.evaluationQueue.map (fun it => it.itemId)).take k) ∧
      singleActive (EvalState.runDrains n st).2 = true := by
  induction n with
  | zero =>
    intro st _ _
    exact ⟨⟨0, rfl⟩, rfl⟩
  | succ n ih =>
    intro st h1 h2
    rw [EvalState.runDrains]
    by_cases hp : st.pendingDrains = 0
    · have ht : st.runTick = TickResult.noTick st := by
        unfold EvalState.runTick
        rw [if_pos hp]
      rw [ht]
      exact ⟨⟨0, rfl⟩, rfl⟩
    · cases hq : st.evaluationQueue with
      | nil =>
        have ht : st.runTick =
            TickResult.ticked { st with pendingDrains := st.pendingDrains - 1 } [] := by
          unfold EvalState.runTick
          rw [if_neg hp]
          dsimp only
          rw [show ({ st with pendingDrains := st.pendingDrains - 1 } :
            EvalState).evaluationQueue = [] from hq]
        rw [ht]
        obtain ⟨⟨k, hk⟩, hw⟩ := ih { st with pendingDrains := st.pendingDrains - 1 } h1 h2
        dsimp only
        constructor
        · refine ⟨0, ?_⟩
          rw [hq] at hk ⊢
          simp at hk
          simpa using hk
        · exact hw
      | cons item rest =>
        have hty : ¬item.type = QueuedType.changes :=
          h2 item (by rw [hq]; exact List.mem_cons_self _ _)
        rcases runTick_cons st item rest hp hq hty with
          ⟨st3, tr, ht, hce, hqueue, hns⟩ | ⟨st3, m, tr, ht, hns⟩
        · rw [ht]
          dsimp only
          have h2a : ∀ it ∈ st3.evaluationQueue, ¬it.type = QueuedType.changes := by
            intro it hit
            rw [hqueue] at hit
            exact h2 it (by rw [hq]; exact List.mem_cons_of_mem _ hit)
          obtain ⟨⟨k, hk⟩, hw⟩ := ih st3 hce h2a
          have hsa : startedIds ((Event.itemStarted item.itemId :: tr) ++
              [Event.itemFinished item.itemId]) = [item.itemId] := by
            rw [startedIds_append]
            rw [show startedIds (Event.itemStarted item.itemId :: tr) =
              item.itemId :: startedIds tr from rfl]
            rw [startedIds_nosched tr hns]
            rfl
          constructor
          · refine ⟨k + 1, ?_⟩
            rw [startedIds_append, hsa, List.map_cons, List.take_succ_cons]
            rw [hqueue] at hk
            rw [hk]
            rfl
          · unfold singleActive
            rw [show ((Event.itemStarted item.itemId :: tr) ++
                [Event.itemFinished item.itemId]) ++ (EvalState.runDrains n st3).2 =
              Event.itemStarted item.itemId ::
                (tr ++ ([Event.itemFinished item.itemId] ++
                  (EvalState.runDrains n st3).2)) by simp]
            rw [show wellNestedAux (Event.itemStarted item.itemId ::
                (tr ++ ([Event.itemFinished item.itemId] ++
                  (EvalState.runDrains n st3).2))) false =
              wellNestedAux (tr ++ ([Event.itemFinished item.itemId] ++
                (EvalState.runDrains n st3).2)) true from rfl]
            rw [wellNestedAux_append_nosched tr _ true hns]
            rw [show wellNestedAux ([Event.itemFinished item.itemId] ++
                (EvalState.runDrains n st3).2) true =
              wellNestedAux (EvalState.runDrains n st3).2 false from rfl]
            exact hw
        · rw [ht]
          dsimp only
          constructor
          · refine ⟨1, ?_⟩
            rw [List.map_cons, List.take_succ_cons, List.take_zero]
            rw [show startedIds (Event.itemStarted item.itemId :: tr) =
              item.itemId :: startedIds tr from rfl]
            rw [startedIds_nosched tr hns]
          · unfold singleActive
            rw [show wellNestedAux (Event.itemStarted item.itemId :: tr) false =
              wellNestedAux tr true from rfl]
            have h5 := wellNestedAux_append_nosched tr [] true hns
            rw [List.append_nil] at h5
            rw [h5]
            rfl

/-- Witness for C6: a concrete evaluation with two queued action items and a
scheduled drain starts the items in FIFO order with one active at a time. -/
theorem claim_C6_queue_fifo_single_active_witness :
    (∃ k, startedIds (EvalState.runDrains 4 sampleQueueState).2 =
      (sampleQueueState.evaluationQueue.map (fun it => it.itemId)).take k) ∧
    singleActive (EvalState.runDrains 4 sampleQueueState).2 = true :=
  claim_C6_queue_fifo_single_active 4 sampleQueueState rfl (by
    intro it hit
    have h : it = sampleItemOne ∨ it = sampleItemTwo := by
      simpa [sampleQueueState] using hit
    rcases h with rfl | rfl <;> intro hc <;> exact QueuedType.noConfusion hc)

end Eve
